import Mathlib

/-!
A length-prefixed port protocol: `erl_comm.c` and `port.c`

Shallow embedding of the framing layer (`read_exact`, `write_exact`,
`read_cmd`, `write_cmd`) and of the command loop (`main`).

* A `byte` is an `unsigned char`, a value below 256.
* The two file descriptors are a `World`: the bytes the peer will still
  deliver on descriptor 0, the bytes emitted so far on descriptor 1, and for
  each descriptor a schedule that fixes how the kernel answers the successive
  `read` / `write` calls (how many bytes it transfers, or which failure it
  reports).  Every call is recorded in a log.
* A buffer is a list of bytes of fixed length with checked indexing: a
  transfer that would touch an index outside the buffer is a `Fault.bounds`.
* The loops are `do ... while (...)` loops.  They are unrolled over a fuel
  counter; running out of fuel is `Fault.fuel`.  The wrappers hand out more
  fuel than the loop can use (`len + 1` passes for a transfer of `len`
  bytes, one pass per input byte plus one for `main`): no run ends in
  `Fault.fuel` (`read_exact_fuel_suffices`, `write_exact_fuel_suffices`,
  `main_fuel_suffices`), and every theorem below that speaks of a result
  proves that the run ends in `Res.ok`.
* `int` values are integers; lengths are natural numbers (a negative length
  is outside the model).
-/

namespace ErlPort

/-- The C type `byte` (`unsigned char`). -/
abbrev byte := Fin 256

/-- Ways in which a run of the model can stop without a result. -/
inductive Fault where
  | fuel
  | bounds
  deriving DecidableEq

/-- One interaction of the program with the outside. -/
inductive Event where
  | read (off n : Nat) (ret : Int)
  | write (off n : Nat) (ret : Int)
  | foo (arg : Int)
  | bar (arg : Int)
  deriving DecidableEq

/-- The state of the two descriptors. -/
structure World where
  input : List byte
  rsched : List Int
  output : List byte
  wsched : List Int
  log : List Event
  deriving DecidableEq

/-- Result of a run: a fault or a value. -/
inductive Res (α : Type) where
  | ok (a : α)
  | fault (f : Fault)
  deriving DecidableEq

/-- Overwrite `buf[off ..]` with `bs`. -/
def store (buf : List byte) (off : Nat) (bs : List byte) : List byte :=
  buf.take off ++ bs ++ buf.drop (off + bs.length)

/-- The answer the kernel has scheduled for the next `read`: a negative entry
is a failure, any other entry is the number of bytes it has ready (at least
one, since `read` blocks until data is there); with no entry left it has
everything ready. -/
def read_hint (w : World) (n : Nat) : Int :=
  match w.rsched with
  | [] => n
  | h :: _ => h

/-- The system call `read(0, buf + off, n)`: a scheduled failure is returned
as it is; otherwise between one and `n` of the remaining input bytes are
stored at `buf[off ..]` and their number is returned, which is zero exactly
at end-of-stream or for `n = 0`.  Storing past the end of `buf` is a bounds
fault. -/
def sys_read (w : World) (buf : List byte) (off n : Nat) :
    Res (Int × List byte × World) :=
  let h := read_hint w n
  if h < 0 then
    .ok (h, buf, { w with rsched := w.rsched.tail,
                          log := w.log ++ [Event.read off n h] })
  else
    let k := min (max h.toNat 1) (min n w.input.length)
    if off + k ≤ buf.length then
      .ok ((k : Int), store buf off (w.input.take k),
           { w with input := w.input.drop k, rsched := w.rsched.tail,
                    log := w.log ++ [Event.read off n k] })
    else .fault .bounds

/-- The answer the kernel has scheduled for the next `write`: an entry that
is zero or negative is returned as it is, a positive entry is the number of
bytes it accepts; with no entry left it accepts everything. -/
def write_hint (w : World) (n : Nat) : Int :=
  match w.wsched with
  | [] => n
  | h :: _ => h

/-- The system call `write(1, buf + off, n)`: a scheduled answer of zero or
less is returned as it is; otherwise between one and `n` bytes of
`buf[off ..]` are appended to the output and their number is returned.
Reading past the end of `buf` is a bounds fault. -/
def sys_write (w : World) (buf : List byte) (off n : Nat) :
    Res (Int × World) :=
  let h := write_hint w n
  if h ≤ 0 then
    .ok (h, { w with wsched := w.wsched.tail,
                     log := w.log ++ [Event.write off n h] })
  else
    let k := min h.toNat n
    if off + k ≤ buf.length then
      .ok ((k : Int),
           { w with output := w.output ++ (buf.drop off).take k,
                    wsched := w.wsched.tail,
                    log := w.log ++ [Event.write off n k] })
    else .fault .bounds

/-- The `do ... while (got<len)` loop of `read_exact`. -/
def read_exact_loop : Nat → World → List byte → Nat → Nat →
    Res (Int × List byte × World)
  | 0, _, _, _, _ => .fault .fuel
  | fuel + 1, w, buf, len, got =>
    match sys_read w buf got (len - got) with
    | .fault f => .fault f
    | .ok (i, buf1, w1) =>
      if i ≤ 0 then .ok (i, buf1, w1)
      else
        let got1 := got + i.toNat
        if got1 < len then read_exact_loop fuel w1 buf1 len got1
        else .ok ((len : Int), buf1, w1)

/-- The function `read_exact(buf, len)`. -/
def read_exact (w : World) (buf : List byte) (len : Nat) :
    Res (Int × List byte × World) :=
  read_exact_loop (len + 1) w buf len 0

/-- The `do ... while (wrote<len)` loop of `write_exact`. -/
def write_exact_loop : Nat → World → List byte → Nat → Nat →
    Res (Int × World)
  | 0, _, _, _, _ => .fault .fuel
  | fuel + 1, w, buf, len, wrote =>
    match sys_write w buf wrote (len - wrote) with
    | .fault f => .fault f
    | .ok (i, w1) =>
      if i ≤ 0 then .ok (i, w1)
      else
        let wrote1 := wrote + i.toNat
        if wrote1 < len then write_exact_loop fuel w1 buf len wrote1
        else .ok ((len : Int), w1)

/-- The function `write_exact(buf, len)`. -/
def write_exact (w : World) (buf : List byte) (len : Nat) :
    Res (Int × World) :=
  write_exact_loop (len + 1) w buf len 0

/-- The expression `(buf[0] << 8) | buf[1]` of `read_cmd`. -/
def decode_len (hi lo : byte) : Nat :=
  (hi.val <<< 8) ||| lo.val

/-- The function `read_cmd(buf)`: the two length bytes and the payload are
both read into `buf` from offset 0. -/
def read_cmd (w : World) (buf : List byte) : Res (Int × List byte × World) :=
  match read_exact w buf 2 with
  | .fault f => .fault f
  | .ok (r, buf1, w1) =>
    if r ≠ 2 then .ok (-1, buf1, w1)
    else
      match buf1[0]?, buf1[1]? with
      | some hi, some lo => read_exact w1 buf1 (decode_len hi lo)
      | _, _ => .fault .bounds

/-- The first value of `li` in `write_cmd`: `(len >> 8) & 0xff`. -/
def len_hi (len : Nat) : byte :=
  Fin.ofNat ((len >>> 8) &&& 0xff)

/-- The second value of `li` in `write_cmd`: `len & 0xff`. -/
def len_lo (len : Nat) : byte :=
  Fin.ofNat (len &&& 0xff)

/-- The function `write_cmd(buf, len)`.  The results of the two prefix writes
are dropped, as in the source. -/
def write_cmd (w : World) (buf : List byte) (len : Nat) : Res (Int × World) :=
  match write_exact w [len_hi len] 1 with
  | .fault f => .fault f
  | .ok (_, w1) =>
    match write_exact w1 [len_lo len] 1 with
    | .fault f => .fault f
    | .ok (_, w2) => write_exact w2 buf len

/-- Conversion of an `int` to `byte` (the assignment `buf[0] = res`). -/
def to_byte (x : Int) : byte :=
  Fin.ofNat (x % 256).toNat

/-- The `if (fn == 1) ... else if (fn == 2) ...` of `main`: the new value of
`res` and the world with the handler call recorded. -/
def dispatch (foo bar : Int → Int) (w : World) (fn arg res : Int) :
    Int × World :=
  if fn = 1 then
    (foo arg, { w with log := w.log ++ [Event.foo arg] })
  else if fn = 2 then
    (bar arg, { w with log := w.log ++ [Event.bar arg] })
  else (res, w)

/-- The `while (read_cmd(buf) > 0)` loop of `main`; the result is the final
world, buffer and value of `res`. -/
def main_loop (foo bar : Int → Int) : Nat → World → List byte → Int →
    Res (World × List byte × Int)
  | 0, _, _, _ => .fault .fuel
  | fuel + 1, w, buf, res =>
    match read_cmd w buf with
    | .fault f => .fault f
    | .ok (r, buf1, w1) =>
      if r > 0 then
        match buf1[0]?, buf1[1]? with
        | some fn, some arg =>
          match dispatch foo bar w1 (fn.val : Int) (arg.val : Int) res with
          | (res1, w2) =>
            match write_cmd w2 (buf1.set 0 (to_byte res1)) 1 with
            | .fault f => .fault f
            | .ok (_, w3) => main_loop foo bar fuel w3 (buf1.set 0 (to_byte res1)) res1
        | _, _ => .fault .bounds
      else .ok (w1, buf1, res)

/-- The function `main`.  The contents of `buf[100]` and of `res` are
indeterminate at entry: they are the parameters `junk` and `res0`.  Every
pass through the loop body consumes at least two bytes of input, so the fuel
is never used up. -/
def main (foo bar : Int → Int) (w : World) (junk : Nat → byte) (res0 : Int) :
    Res (World × List byte × Int) :=
  main_loop foo bar (w.input.length + 1) w ((List.range 100).map junk) res0

/-- A world with the given input and schedules, nothing written yet. -/
def World.start (input : List byte) (rsched wsched : List Int) : World :=
  { input := input, rsched := rsched, output := [], wsched := wsched, log := [] }

/-- The shape of one run of an exact-transfer loop for `len` bytes that enters
the loop body with `got` bytes done: the calls it issues (each for the
outstanding `len - got` bytes at offset `got`), the value it returns and the
number of bytes it transfers.  A call answered with zero or less ends the run
with that answer; a call that completes `len` ends it with `len`. -/
inductive ExactRun (mk : Nat → Nat → Int → Event) (len : Nat) :
    Nat → List Event → Int → Nat → Prop where
  | stop (got : Nat) (r : Int) : r ≤ 0 →
      ExactRun mk len got [mk got (len - got) r] r 0
  | done (got k : Nat) : 0 < k → got + k = len →
      ExactRun mk len got [mk got (len - got) k] len k
  | more (got k : Nat) (evs : List Event) (r : Int) (m : Nat) :
      0 < k → got + k < len → ExactRun mk len (got + k) evs r m →
      ExactRun mk len got (mk got (len - got) k :: evs) r (k + m)

/-- Spec-side reading of "the stream supplies `n` bytes before ending or
failing", for a reader that keeps asking for the outstanding bytes: every
answer is a failure (negative entry), the end of the stream (no byte left) or
between one byte and the number asked for.  `avail` is the number of bytes
the stream still holds. -/
def supplies : List Int → Nat → Nat → Bool
  | _, _, 0 => true
  | [], avail, n + 1 => decide (n + 1 ≤ avail)
  | h :: rest, avail, n + 1 =>
    if h < 0 then false
    else if avail = 0 then false
    else supplies rest (avail - min (max h.toNat 1) (min (n + 1) avail))
      (n + 1 - min (max h.toNat 1) (min (n + 1) avail))

/-- Spec-side: the wire bytes of a sequence of requests `[op, x]`, each sent
as a frame with the length bytes `0, 2`. -/
def request_frames : List (byte × byte) → List byte
  | [] => []
  | (op, x) :: qs => 0 :: 2 :: op :: x :: request_frames qs

/-- Spec-side: the response frames expected for a sequence of requests with
opcodes 1 (`foo`) and 2 (`bar`): for each request the length bytes `0, 1` and
the handler result reduced to a byte. -/
def response_frames (foo bar : Int → Int) : List (byte × byte) → List byte
  | [] => []
  | (op, x) :: qs =>
    0 :: 1 :: to_byte (if (op.val : Int) = 1 then foo x.val else bar x.val) ::
      response_frames foo bar qs

/-- Spec-side: `n` copies of the response frame `[0, 1, b]`. -/
def repeat_frame (b : byte) : Nat → List byte
  | 0 => []
  | n + 1 => 0 :: 1 :: b :: repeat_frame b n

/-- Whether a log entry is a handler call. -/
def Event.is_call : Event → Bool
  | .foo _ => true
  | .bar _ => true
  | _ => false

/-- Spec-side: the handler calls expected for a sequence of requests with
opcodes 1 (`foo`) and 2 (`bar`), in request order. -/
def calls_of : List (byte × byte) → List Event
  | [] => []
  | (op, x) :: qs =>
    (if (op.val : Int) = 1 then Event.foo x.val else Event.bar x.val) :: calls_of qs

end ErlPort

namespace ErlPort

/-! ## The length prefix -/

theorem decode_len_eq (hi lo : byte) : decode_len hi lo = 256 * hi.val + lo.val := by
  unfold decode_len
  have h : lo.val < 2 ^ 8 := lo.isLt
  rw [Nat.shiftLeft_eq, Nat.mul_comm, ← Nat.mul_add_lt_is_or h]

theorem len_hi_val (len : Nat) : (len_hi len).val = len / 256 % 256 := by
  show ((len >>> 8) &&& 0xff) % 256 = _
  rw [Nat.shiftRight_eq_div_pow, show (0xff : Nat) = 2 ^ 8 - 1 from rfl,
    Nat.and_pow_two_sub_one_eq_mod]
  norm_num

theorem len_lo_val (len : Nat) : (len_lo len).val = len % 256 := by
  show (len &&& 0xff) % 256 = _
  rw [show (0xff : Nat) = 2 ^ 8 - 1 from rfl, Nat.and_pow_two_sub_one_eq_mod]
  norm_num

theorem decode_len_encode (len : Nat) :
    decode_len (len_hi len) (len_lo len) = len % 65536 := by
  rw [decode_len_eq, len_hi_val, len_lo_val]
  omega

/-! ## The system calls -/

theorem sys_write_spec (w : World) (buf : List byte) (off n : Nat)
    (hb : off + n ≤ buf.length) :
    ∃ (i : Int) (w1 : World), sys_write w buf off n = .ok (i, w1) ∧
      i ≤ n ∧ (i ≤ 0 → 0 < n → i = write_hint w n) ∧
      (0 < write_hint w n → 0 < n → 0 < i) ∧ (0 ≤ write_hint w n → 0 ≤ i) ∧
      w1.output = w.output ++ (buf.drop off).take i.toNat ∧
      w1.wsched = w.wsched.tail ∧
      w1.log = w.log ++ [Event.write off n i] ∧
      w1.input = w.input ∧ w1.rsched = w.rsched := by
  unfold sys_write
  by_cases h : write_hint w n ≤ 0
  · simp only [h, if_true]
    refine ⟨_, _, rfl, by omega, fun _ _ => rfl, fun h1 => by omega, fun h1 => h1, ?_,
      rfl, rfl, rfl, rfl⟩
    simp [Int.toNat_of_nonpos h]
  · have h1 : min (write_hint w n).toNat n ≤ n := Nat.min_le_right _ _
    have h2 : 0 < n → 0 < min (write_hint w n).toNat n := fun hn =>
      Nat.lt_min.mpr ⟨by omega, hn⟩
    have hk : off + min (write_hint w n).toNat n ≤ buf.length := by omega
    simp only [h, if_false, hk, if_true]
    refine ⟨_, _, rfl, by omega, fun h3 hn => by have := h2 hn; omega,
      fun _ hn => by have := h2 hn; omega, fun _ => by omega, ?_, rfl, rfl, rfl, rfl⟩
    simp only [Int.toNat_ofNat]

theorem write_hint_pos (w : World) (n : Nat) (hs : ∀ h ∈ w.wsched, (0 : Int) < h) :
    0 ≤ write_hint w n ∧ (0 < n → 0 < write_hint w n) := by
  unfold write_hint
  cases hw : w.wsched with
  | nil => simp
  | cons a _ =>
    have := hs a (by simp [hw])
    exact ⟨by simpa using this.le, fun _ => by simpa using this⟩

theorem exactRun_result {mk : Nat → Nat → Int → Event} {len got : Nat}
    {evs : List Event} {r : Int} {m : Nat} (h : ExactRun mk len got evs r m) :
    (r = len ∧ got + m = len) ∨ (r ≤ 0 ∧ (0 < len - got → got + m < len)) := by
  induction h with
  | stop got r hr => exact Or.inr ⟨hr, fun h => by omega⟩
  | done got k hk hl => exact Or.inl ⟨rfl, hl⟩
  | more got k evs r m hk hl _ ih =>
    rcases ih with ⟨h1, h2⟩ | ⟨h1, h2⟩
    · exact Or.inl ⟨h1, by omega⟩
    · exact Or.inr ⟨h1, fun _ => by have := h2 (by omega); omega⟩

/-! ## `write_exact` -/

theorem write_exact_loop_run (buf : List byte) (len : Nat) (hb : len ≤ buf.length) :
    ∀ (fuel : Nat) (w : World) (wrote : Nat), wrote ≤ len → len - wrote < fuel →
    ∃ (r : Int) (w1 : World) (evs : List Event) (m : Nat),
      write_exact_loop fuel w buf len wrote = .ok (r, w1) ∧
      ExactRun Event.write len wrote evs r m ∧
      w1.log = w.log ++ evs ∧
      w1.output = w.output ++ (buf.drop wrote).take m ∧
      w1.input = w.input ∧ w1.rsched = w.rsched ∧
      w1.wsched = w.wsched.drop evs.length ∧
      ((∀ h ∈ w.wsched, (0 : Int) < h) → wrote < len ∨ len = 0 → r = len) := by
  intro fuel
  induction fuel with
  | zero => intro w wrote _ h; omega
  | succ fuel ih =>
    intro w wrote hw hf
    obtain ⟨i, w1, hi0, hi1, hi2, hi3, hi4, ho, hs, hl, hin, hrs⟩ :=
      sys_write_spec w buf wrote (len - wrote) (by omega)
    rw [write_exact_loop, hi0]
    by_cases hi : i ≤ 0
    · refine ⟨i, w1, [Event.write wrote (len - wrote) i], 0, by simp [hi],
        ExactRun.stop wrote i hi, hl, by simp [ho, Int.toNat_of_nonpos hi], hin, hrs,
        by simp [hs, ← List.drop_one], fun hs hc => ?_⟩
      have hp := write_hint_pos w (len - wrote) hs
      rcases Nat.eq_zero_or_pos (len - wrote) with h0 | h0
      · have := hi4 hp.1; omega
      · have := hi3 (hp.2 h0) h0; omega
    · obtain ⟨k, rfl⟩ := Int.eq_ofNat_of_zero_le (show 0 ≤ i by omega)
      have hk : 0 < k := by omega
      have hkl : wrote + k ≤ len := by omega
      simp only [hi, if_false, Int.toNat_ofNat] at ho ⊢
      by_cases hlt : wrote + k < len
      · obtain ⟨r, w2, evs, m, h1, h2, h3, h4, h5, h6, h7, h8⟩ :=
          ih w1 (wrote + k) hkl (by omega)
        refine ⟨r, w2, _, k + m, by simp only [hlt, if_true, h1],
          ExactRun.more wrote k evs r m hk hlt h2, by simp [h3, hl], ?_,
          by rw [h5, hin], by rw [h6, hrs], ?_,
          fun hs1 _ => h8 (fun h hh => hs1 h ?_) (Or.inl hlt)⟩
        · rw [h4, ho, List.take_add, List.drop_drop]
          simp [Nat.add_comm]
        · rw [h7, hs, List.length_cons, ← List.drop_one, List.drop_drop, Nat.add_comm]
        · rw [hs] at hh
          exact List.mem_of_mem_tail hh
      · refine ⟨len, w1, [Event.write wrote (len - wrote) k], k, by simp only [hlt, if_false],
          ExactRun.done wrote k hk (by omega), hl, ho, hin, hrs,
          by simp [hs, ← List.drop_one], fun _ _ => rfl⟩

theorem exactRun_le {mk : Nat → Nat → Int → Event} {len got : Nat}
    {evs : List Event} {r : Int} {m : Nat} (h : ExactRun mk len got evs r m)
    (hg : got ≤ len) : got + m ≤ len := by
  induction h with
  | stop got r hr => omega
  | done got k hk hl => omega
  | more got k evs r m hk hl _ ih => have := ih (by omega); omega

theorem exactRun_all_pos {mk : Nat → Nat → Int → Event} {len got : Nat}
    {evs : List Event} {r : Int} {m : Nat} (h : ExactRun mk len got evs r m)
    (hp : ∀ a b i, mk a b i ∈ evs → (0 : Int) < i) : r = len ∧ got + m = len := by
  induction h with
  | stop got r hr => have := hp got (len - got) r (by simp); omega
  | done got k hk hl => exact ⟨rfl, hl⟩
  | more got k evs r m hk hl _ ih =>
    have := ih fun a b i hi => hp a b i (List.mem_cons_of_mem _ hi)
    exact ⟨this.1, by omega⟩

theorem exactRun_fail_last {mk : Nat → Nat → Int → Event}
    (hinj : ∀ a b i a1 b1 i1, mk a b i = mk a1 b1 i1 → i = i1) {len got : Nat}
    {evs : List Event} {r : Int} {m : Nat} (h : ExactRun mk len got evs r m) :
    ∀ a b i, mk a b i ∈ evs → i ≤ 0 → r = i ∧ evs.getLast? = some (mk a b i) := by
  induction h with
  | stop got r hr =>
    intro a b i hm _
    rw [List.mem_singleton] at hm
    exact ⟨(hinj _ _ _ _ _ _ hm).symm, by simp [hm]⟩
  | done got k hk hl =>
    intro a b i hm hi
    rw [List.mem_singleton] at hm
    have := hinj _ _ _ _ _ _ hm
    omega
  | more got k evs r m hk hl _ ih =>
    intro a b i hm hi
    rcases List.mem_cons.mp hm with hm | hm
    · have := hinj _ _ _ _ _ _ hm
      omega
    · obtain ⟨h1, h2⟩ := ih a b i hm hi
      refine ⟨h1, ?_⟩
      cases evs with
      | nil => simp at hm
      | cons e es => simpa [List.getLast?_cons_cons] using h2

theorem exactRun_events {mk : Nat → Nat → Int → Event} {len got : Nat}
    {evs : List Event} {r : Int} {m : Nat} (h : ExactRun mk len got evs r m) :
    ∀ e ∈ evs, ∃ a b i, e = mk a b i := by
  induction h with
  | stop got r hr => intro e he; exact ⟨_, _, _, List.mem_singleton.mp he⟩
  | done got k hk hl => intro e he; exact ⟨_, _, _, List.mem_singleton.mp he⟩
  | more got k evs r m hk hl _ ih =>
    intro e he
    rcases List.mem_cons.mp he with he | he
    · exact ⟨_, _, _, he⟩
    · exact ih e he

theorem write_exact_run (w : World) (buf : List byte) (len : Nat)
    (hb : len ≤ buf.length) :
    ∃ (r : Int) (w1 : World) (evs : List Event) (m : Nat),
      write_exact w buf len = .ok (r, w1) ∧
      ExactRun Event.write len 0 evs r m ∧
      w1.log = w.log ++ evs ∧
      w1.output = w.output ++ buf.take m ∧
      w1.input = w.input ∧ w1.rsched = w.rsched ∧
      w1.wsched = w.wsched.drop evs.length ∧
      ((∀ h ∈ w.wsched, (0 : Int) < h) → r = len ∧ m = len) := by
  obtain ⟨r, w1, evs, m, h1, h2, h3, h4, h5, h6, h7, h8⟩ :=
    write_exact_loop_run buf len hb (len + 1) w 0 (Nat.zero_le _) (by omega)
  refine ⟨r, w1, evs, m, h1, h2, h3, by simpa using h4, h5, h6, h7, fun hs => ?_⟩
  have hr := h8 hs (by omega)
  refine ⟨hr, ?_⟩
  have hle := exactRun_le h2 (Nat.zero_le _)
  rcases exactRun_result h2 with ⟨_, h⟩ | ⟨h, _⟩
  · omega
  · omega

theorem write_exact_ok (w : World) (buf : List byte) (len : Nat)
    (hb : len ≤ buf.length) (hs : ∀ h ∈ w.wsched, (0 : Int) < h) :
    ∃ w1 : World, write_exact w buf len = .ok ((len : Int), w1) ∧
      w1.output = w.output ++ buf.take len ∧
      w1.input = w.input ∧ w1.rsched = w.rsched ∧
      (∀ h ∈ w1.wsched, (0 : Int) < h) ∧
      (∃ j, w1.wsched = w.wsched.drop j) ∧
      (∃ evs, w1.log = w.log ++ evs ∧ ∀ e ∈ evs, ∃ a b i, e = Event.write a b i) := by
  obtain ⟨r, w1, evs, m, h1, h2, h3, h4, h5, h6, h7, h8⟩ := write_exact_run w buf len hb
  obtain ⟨rfl, rfl⟩ := h8 hs
  exact ⟨w1, h1, h4, h5, h6, fun h hh => hs h (List.mem_of_mem_drop (h7 ▸ hh)),
    ⟨_, h7⟩, evs, h3, exactRun_events h2⟩

/-! ## `write_cmd` -/

theorem len_hi_bits (len : Nat) : (len_hi len).val = (len >>> 8) &&& 0xff := by
  rw [len_hi_val, Nat.shiftRight_eq_div_pow, show (0xff : Nat) = 2 ^ 8 - 1 from rfl,
    Nat.and_pow_two_sub_one_eq_mod]

theorem len_lo_bits (len : Nat) : (len_lo len).val = len &&& 0xff := by
  rw [len_lo_val, show (0xff : Nat) = 2 ^ 8 - 1 from rfl, Nat.and_pow_two_sub_one_eq_mod]

theorem write_cmd_ok (w : World) (buf : List byte) (len : Nat)
    (hb : len ≤ buf.length) (hs : ∀ h ∈ w.wsched, (0 : Int) < h) :
    ∃ w1 : World, write_cmd w buf len = .ok ((len : Int), w1) ∧
      w1.output = w.output ++ (len_hi len :: len_lo len :: buf.take len) ∧
      w1.input = w.input ∧ w1.rsched = w.rsched ∧
      (∀ h ∈ w1.wsched, (0 : Int) < h) ∧
      (∃ evs, w1.log = w.log ++ evs ∧ ∀ e ∈ evs, ∃ a b i, e = Event.write a b i) := by
  obtain ⟨w1, h1, o1, i1, r1, s1, -, evs1, l1, e1⟩ :=
    write_exact_ok w [len_hi len] 1 (by simp) hs
  obtain ⟨w2, h2, o2, i2, r2, s2, -, evs2, l2, e2⟩ :=
    write_exact_ok w1 [len_lo len] 1 (by simp) s1
  obtain ⟨w3, h3, o3, i3, r3, s3, -, evs3, l3, e3⟩ := write_exact_ok w2 buf len hb s2
  refine ⟨w3, ?_, ?_, by rw [i3, i2, i1], by rw [r3, r2, r1], s3, evs1 ++ evs2 ++ evs3, ?_, ?_⟩
  · simp only [write_cmd, h1, h2, h3]
  · rw [o3, o2, o1]; simp
  · rw [l3, l2, l1]; simp
  · intro e he
    simp only [List.mem_append] at he
    rcases he with (he | he) | he
    · exact e1 e he
    · exact e2 e he
    · exact e3 e he

theorem store_length (buf : List byte) (off : Nat) (bs : List byte)
    (h : off + bs.length ≤ buf.length) : (store buf off bs).length = buf.length := by
  simp only [store, List.length_append, List.length_take, List.length_drop]
  omega

theorem store_nil (buf : List byte) (off : Nat) : store buf off [] = buf := by
  simp [store]

theorem store_store (buf : List byte) (off : Nat) (xs ys : List byte)
    (h : off + xs.length ≤ buf.length) :
    store (store buf off xs) (off + xs.length) ys = store buf off (xs ++ ys) := by
  have h1 : (buf.take off).length = off := by simp; omega
  have h2 : (buf.take off ++ xs).length = off + xs.length := by simp [h1]
  unfold store
  have e1 : List.take (off + xs.length) (buf.take off ++ xs ++ buf.drop (off + xs.length))
      = buf.take off ++ xs := by
    rw [← h2]; exact List.take_left' rfl
  have e2 : List.drop (off + xs.length + ys.length)
      (buf.take off ++ xs ++ buf.drop (off + xs.length))
      = buf.drop (off + (xs ++ ys).length) := by
    rw [← h2, List.drop_append, List.drop_drop, h2, List.length_append]
    congr 1; omega
  rw [e1, e2]
  simp

theorem store_take_zero (buf bs : List byte) (n : Nat) (h : n ≤ bs.length) :
    (store buf 0 bs).take n = bs.take n := by
  simp [store, List.take_append_of_le_length h]

/-- The number of bytes a successful `read` for `n` bytes transfers. -/
theorem sys_read_spec (w : World) (buf : List byte) (off n : Nat)
    (hb : off + min n w.input.length ≤ buf.length) :
    ∃ (i : Int) (buf1 : List byte) (w1 : World),
      sys_read w buf off n = .ok (i, buf1, w1) ∧
      i ≤ n ∧ i.toNat ≤ w.input.length ∧
      buf1 = store buf off (w.input.take i.toNat) ∧
      w1.input = w.input.drop i.toNat ∧
      w1.rsched = w.rsched.tail ∧
      w1.log = w.log ++ [Event.read off n i] ∧
      w1.output = w.output ∧ w1.wsched = w.wsched ∧
      (read_hint w n < 0 → i = read_hint w n) ∧
      (0 ≤ read_hint w n →
        i = (min (max (read_hint w n).toNat 1) (min n w.input.length) : Nat)) := by
  unfold sys_read
  by_cases h : read_hint w n < 0
  · simp only [h, if_true]
    have h0 : (read_hint w n).toNat = 0 := Int.toNat_of_nonpos (by omega)
    refine ⟨_, _, _, rfl, by omega, by omega, ?_, ?_, rfl, rfl, rfl, rfl, fun _ => rfl,
      fun h1 => by omega⟩
    · rw [h0, List.take_zero, store_nil]
    · rw [h0, List.drop_zero]
  · have h1 : min (max (read_hint w n).toNat 1) (min n w.input.length) ≤ min n w.input.length :=
      Nat.min_le_right _ _
    have h2 : min n w.input.length ≤ n := Nat.min_le_left _ _
    have h3 : min n w.input.length ≤ w.input.length := Nat.min_le_right _ _
    have hk : off + min (max (read_hint w n).toNat 1) (min n w.input.length) ≤ buf.length := by
      omega
    simp only [h, if_false, hk, if_true]
    refine ⟨_, _, _, rfl, by omega, by simp only [Int.toNat_ofNat]; omega, ?_, ?_, rfl, rfl, rfl,
      rfl, fun h4 => h4.elim, fun _ => rfl⟩
    · simp only [Int.toNat_ofNat]
    · simp only [Int.toNat_ofNat]

theorem read_hint_mem (w : World) (n : Nat) (h : read_hint w n < 0) :
    read_hint w n ∈ w.rsched := by
  unfold read_hint at h ⊢
  cases hw : w.rsched with
  | nil => rw [hw] at h; simp at h; omega
  | cons a _ => simp

theorem read_hint_nonneg (w : World) (n : Nat) (hs : ∀ h ∈ w.rsched, (0 : Int) ≤ h) :
    0 ≤ read_hint w n := by
  unfold read_hint
  cases hw : w.rsched with
  | nil => simp
  | cons a _ => simpa using hs a (by simp [hw])

theorem supplies_unfold (w : World) (n : Nat) (hn : 0 < n) :
    supplies w.rsched w.input.length n =
      if read_hint w n < 0 then false
      else if w.input.length = 0 then false
      else supplies w.rsched.tail
        (w.input.length - min (max (read_hint w n).toNat 1) (min n w.input.length))
        (n - min (max (read_hint w n).toNat 1) (min n w.input.length)) := by
  obtain ⟨n, rfl⟩ : ∃ k, n = k + 1 := ⟨n - 1, by omega⟩
  unfold read_hint
  cases hw : w.rsched with
  | cons a rest => simp only [supplies, List.tail_cons]
  | nil =>
    have h0 : ¬ ((n + 1 : Nat) : Int) < 0 := by omega
    simp only [supplies, List.tail_nil, h0, if_false, Int.toNat_ofNat]
    by_cases ha : n + 1 ≤ w.input.length
    · have hk : min (max (n + 1) 1) (min (n + 1) w.input.length) = n + 1 := by
        simp only [Nat.min_def, Nat.max_def]; split_ifs <;> omega
      have : w.input.length ≠ 0 := by omega
      simp [ha, hk, this, supplies]
    · have hk : min (max (n + 1) 1) (min (n + 1) w.input.length) = w.input.length := by
        simp only [Nat.min_def, Nat.max_def]; split_ifs <;> omega
      rw [hk]
      by_cases hz : w.input.length = 0
      · simp [ha, hz]
      · obtain ⟨j, hj⟩ : ∃ j, n + 1 - w.input.length = j + 1 :=
          ⟨n - w.input.length, by omega⟩
        simp [ha, hz, hj, supplies]

/-! ## `read_exact` -/

theorem read_exact_loop_run (len : Nat) :
    ∀ (fuel : Nat) (w : World) (buf : List byte) (got : Nat),
    got + min (len - got) w.input.length ≤ buf.length → got ≤ len → len - got < fuel →
    ∃ (r : Int) (buf1 : List byte) (w1 : World) (evs : List Event) (m : Nat),
      read_exact_loop fuel w buf len got = .ok (r, buf1, w1) ∧
      ExactRun Event.read len got evs r m ∧
      w1.log = w.log ++ evs ∧
      m ≤ w.input.length ∧
      buf1 = store buf got (w.input.take m) ∧
      w1.input = w.input.drop m ∧
      w1.rsched = w.rsched.drop evs.length ∧
      w1.output = w.output ∧ w1.wsched = w.wsched ∧
      (r < 0 → r ∈ w.rsched) ∧
      (r = 0 → got < len → w1.input = []) ∧
      (got < len → (r = len ↔ supplies w.rsched w.input.length (len - got) = true)) := by
  intro fuel
  induction fuel with
  | zero => intro w buf got _ _ h; omega
  | succ fuel ih =>
    intro w buf got hb hg hf
    obtain ⟨i, buf1, w1, hi0, hi1, hi2, hbuf, hin, hrs, hl, hout, hws, herr, hok⟩ :=
      sys_read_spec w buf got (len - got) hb
    rw [read_exact_loop, hi0]
    by_cases hi : i ≤ 0
    · have ht : i.toNat = 0 := Int.toNat_of_nonpos hi
      rw [ht] at hbuf hin
      simp only [List.take_zero, List.drop_zero] at hbuf hin
      refine ⟨i, buf1, w1, [Event.read got (len - got) i], 0, by simp only [hi, if_true],
        ExactRun.stop got i hi, hl, Nat.zero_le _, by simpa using hbuf, by simpa using hin,
        by simp [hrs, ← List.drop_one], hout, hws, fun hneg => ?_, fun hz hlt => ?_,
        fun hlt => ?_⟩
      · by_cases hh : read_hint w (len - got) < 0
        · rw [herr hh]; exact read_hint_mem w _ hh
        · have := hok (by omega); omega
      · have hh : 0 ≤ read_hint w (len - got) := by
          by_contra hc
          have := herr (by omega); omega
        have hk := hok hh
        rw [hz] at hk
        have hk0 : min (max (read_hint w (len - got)).toNat 1) (min (len - got) w.input.length) = 0 := by
          omega
        have : w.input.length = 0 := by
          simp only [Nat.min_def, Nat.max_def] at hk0; split_ifs at hk0 <;> omega
        rw [hin]; exact List.length_eq_zero.mp this
      · rw [supplies_unfold w (len - got) (by omega)]
        constructor
        · intro h; omega
        · by_cases hh : read_hint w (len - got) < 0
          · simp [hh]
          · have hk := hok (by omega)
            have hk0 : min (max (read_hint w (len - got)).toNat 1)
                (min (len - got) w.input.length) = 0 := by omega
            have : w.input.length = 0 := by
              simp only [Nat.min_def, Nat.max_def] at hk0; split_ifs at hk0 <;> omega
            simp [hh, this]
    · obtain ⟨k, rfl⟩ := Int.eq_ofNat_of_zero_le (show 0 ≤ i by omega)
      have hk : 0 < k := by omega
      have hkl : got + k ≤ len := by omega
      have hh : 0 ≤ read_hint w (len - got) := by
        by_contra hc
        have := herr (by omega); omega
      have hkeq : k = min (max (read_hint w (len - got)).toNat 1)
          (min (len - got) w.input.length) := by have := hok hh; omega
      simp only [Int.toNat_ofNat] at hi2 hbuf hin
      simp only [hi, if_false, Int.toNat_ofNat]
      have hsup : supplies w.rsched w.input.length (len - got) =
          supplies w1.rsched w1.input.length (len - (got + k)) := by
        rw [supplies_unfold w (len - got) (by omega), hrs, hin, List.length_drop, ← hkeq]
        have h1 : ¬ read_hint w (len - got) < 0 := by omega
        have h2 : ¬ w.input.length = 0 := by omega
        simp only [h1, h2, if_false]
        congr 1; omega
      by_cases hlt : got + k < len
      · have hmin : min (len - got) w.input.length =
            k + min (len - (got + k)) (w.input.length - k) := by
          simp only [Nat.min_def]; split_ifs <;> omega
        have hb1 : got + k + min (len - (got + k)) w1.input.length ≤ buf1.length := by
          rw [hbuf, store_length, hin, List.length_drop]
          · omega
          · rw [List.length_take]; omega
        obtain ⟨r, buf2, w2, evs, m, h1, h2, h3, h4, h5, h6, h7, h8, h9, h10, h11, h12⟩ :=
          ih w1 buf1 (got + k) hb1 hkl (by omega)
        rw [hin, List.length_drop] at h4
        refine ⟨r, buf2, w2, _, k + m, by simp only [hlt, if_true, h1],
          ExactRun.more got k evs r m hk hlt h2, by simp [h3, hl], by omega, ?_, ?_, ?_,
          by rw [h8, hout], by rw [h9, hws], fun hneg => ?_, fun hz _ => h11 hz hlt,
          fun _ => by rw [hsup]; exact h12 hlt⟩
        · rw [h5, hbuf, hin, List.take_add]
          have hlen : (List.take k w.input).length = k := by rw [List.length_take]; omega
          have := store_store buf got (List.take k w.input) (List.take m (List.drop k w.input))
            (by omega)
          rw [hlen] at this
          exact this
        · rw [h6, hin, List.drop_drop, Nat.add_comm]
        · rw [h7, hrs, List.length_cons, ← List.drop_one, List.drop_drop, Nat.add_comm]
        · have := h10 hneg
          rw [hrs] at this
          exact List.mem_of_mem_tail this
      · have hkl2 : got + k = len := by omega
        refine ⟨len, buf1, w1, [Event.read got (len - got) k], k, by simp only [hlt, if_false],
          ExactRun.done got k hk hkl2, hl, hi2, hbuf, hin, by simp [hrs, ← List.drop_one],
          hout, hws, fun hneg => by omega, fun hz _ => by omega, fun _ => ?_⟩
        rw [hsup, hkl2, Nat.sub_self]
        simp [supplies]

theorem supplies_of_nonneg (sched : List Int) :
    ∀ (avail n : Nat), (∀ h ∈ sched, (0 : Int) ≤ h) → n ≤ avail →
      supplies sched avail n = true := by
  induction sched with
  | nil =>
    intro avail n _ ha
    cases n with
    | zero => simp [supplies]
    | succ n => simpa [supplies] using ha
  | cons h rest ih =>
    intro avail n hs ha
    cases n with
    | zero => simp [supplies]
    | succ n =>
      have h0 : ¬ h < 0 := by have := hs h (by simp); omega
      have h1 : ¬ avail = 0 := by omega
      simp only [supplies, h0, h1, if_false]
      exact ih _ _ (fun x hx => hs x (List.mem_cons_of_mem _ hx)) (by omega)

theorem supplies_le (sched : List Int) :
    ∀ (avail n : Nat), supplies sched avail n = true → n ≤ avail := by
  induction sched with
  | nil =>
    intro avail n h
    cases n with
    | zero => omega
    | succ n => simpa [supplies] using h
  | cons a rest ih =>
    intro avail n h
    cases n with
    | zero => omega
    | succ n =>
      simp only [supplies] at h
      split_ifs at h with h0 h1
      have := ih _ _ h
      have hk : min (max a.toNat 1) (min (n + 1) avail) ≤ min (n + 1) avail :=
        Nat.min_le_right _ _
      have hk2 : min (n + 1) avail ≤ avail := Nat.min_le_right _ _
      omega

theorem read_exact_run (w : World) (buf : List byte) (len : Nat)
    (hb : min len w.input.length ≤ buf.length) :
    ∃ (r : Int) (buf1 : List byte) (w1 : World) (evs : List Event) (m : Nat),
      read_exact w buf len = .ok (r, buf1, w1) ∧
      ExactRun Event.read len 0 evs r m ∧
      w1.log = w.log ++ evs ∧
      m ≤ w.input.length ∧
      buf1 = store buf 0 (w.input.take m) ∧
      w1.input = w.input.drop m ∧
      w1.rsched = w.rsched.drop evs.length ∧
      w1.output = w.output ∧ w1.wsched = w.wsched ∧
      (r < 0 → r ∈ w.rsched) ∧
      (r = 0 → 0 < len → w1.input = []) ∧
      (0 < len → (r = len ↔ supplies w.rsched w.input.length len = true)) :=
  read_exact_loop_run len (len + 1) w buf 0 (by simpa using hb) (Nat.zero_le _) (by omega)

theorem read_exact_ok (w : World) (buf : List byte) (len : Nat)
    (hb : len ≤ buf.length) (hs : ∀ h ∈ w.rsched, (0 : Int) ≤ h)
    (ha : len ≤ w.input.length) :
    ∃ (buf1 : List byte) (w1 : World),
      read_exact w buf len = .ok ((len : Int), buf1, w1) ∧
      buf1 = store buf 0 (w.input.take len) ∧
      w1.input = w.input.drop len ∧
      (∀ h ∈ w1.rsched, (0 : Int) ≤ h) ∧
      w1.output = w.output ∧ w1.wsched = w.wsched ∧
      (∃ evs, w1.log = w.log ++ evs ∧ ∀ e ∈ evs, ∃ a b i, e = Event.read a b i) := by
  obtain ⟨r, buf1, w1, evs, m, h1, h2, h3, h4, h5, h6, h7, h8, h9, h10, h11, h12⟩ :=
    read_exact_run w buf len (le_trans (Nat.min_le_left _ _) hb)
  have hr : r = len := by
    rcases Nat.eq_zero_or_pos len with h0 | h0
    · rcases exactRun_result h2 with ⟨e, _⟩ | ⟨e, _⟩
      · exact e
      · by_cases e1 : r < 0
        · have := hs r (h10 e1); omega
        · omega
    · exact (h12 h0).mpr (supplies_of_nonneg _ _ _ hs ha)
  have hm : m = len := by
    have := exactRun_le h2 (Nat.zero_le _)
    rcases exactRun_result h2 with ⟨_, e⟩ | ⟨e, _⟩
    · omega
    · omega
  subst hr
  subst hm
  exact ⟨buf1, w1, h1, h5, h6, fun h hh => hs h (List.mem_of_mem_drop (h7 ▸ hh)), h8, h9,
    evs, h3, exactRun_events h2⟩

/-! ## `read_cmd` -/

theorem store_zero (buf bs : List byte) : store buf 0 bs = bs ++ buf.drop bs.length := by
  simp [store]

theorem read_cmd_ok (w : World) (buf : List byte) (hi lo : byte) (payload rest : List byte)
    (hin : w.input = hi :: lo :: (payload ++ rest))
    (hlen : payload.length = decode_len hi lo)
    (hb2 : 2 ≤ buf.length) (hbL : payload.length ≤ buf.length)
    (hs : ∀ h ∈ w.rsched, (0 : Int) ≤ h) :
    ∃ (buf1 : List byte) (w1 : World),
      read_cmd w buf = .ok ((payload.length : Int), buf1, w1) ∧
      buf1 = store (store buf 0 [hi, lo]) 0 payload ∧
      w1.input = rest ∧
      (∀ h ∈ w1.rsched, (0 : Int) ≤ h) ∧
      w1.output = w.output ∧ w1.wsched = w.wsched ∧
      (∃ evs, w1.log = w.log ++ evs ∧ ∀ e ∈ evs, ∃ a b i, e = Event.read a b i) := by
  obtain ⟨buf1, w1, h1, hbuf1, hin1, hs1, ho1, hw1, evs1, hl1, he1⟩ :=
    read_exact_ok w buf 2 hb2 hs (by rw [hin]; simp)
  rw [hin] at hbuf1 hin1
  simp only [List.take_succ_cons, List.take_zero, List.drop_succ_cons, List.drop_zero]
    at hbuf1 hin1
  have hlen1 : buf1.length = buf.length := by
    rw [hbuf1, store_length]; simpa using hb2
  obtain ⟨buf2, w2, h2, hbuf2, hin2, hs2, ho2, hw2, evs2, hl2, he2⟩ :=
    read_exact_ok w1 buf1 payload.length (by omega) hs1 (by rw [hin1]; simp)
  rw [hin1] at hbuf2 hin2
  simp only [List.take_left', List.drop_left'] at hbuf2 hin2
  have e0 : buf1[0]? = some hi := by rw [hbuf1, store_zero]; simp
  have e1 : buf1[1]? = some lo := by rw [hbuf1, store_zero]; simp
  refine ⟨buf2, w2, ?_, by rw [hbuf2, hbuf1], hin2, hs2, by rw [ho2, ho1], by rw [hw2, hw1],
    evs1 ++ evs2, by rw [hl2, hl1, List.append_assoc], ?_⟩
  · simp only [read_cmd, h1, e0, e1, ← hlen, h2]
    simp
  · intro e he
    rcases List.mem_append.mp he with he | he
    · exact he1 e he
    · exact he2 e he

theorem exactRun_two_fail {evs : List Event} {r : Int} {m : Nat}
    (h : ExactRun Event.read 2 0 evs r m) (hr : r ≠ 2) :
    r ≤ 0 ∧ ((evs = [Event.read 0 2 r] ∧ m = 0) ∨
      (evs = [Event.read 0 2 1, Event.read 1 1 r] ∧ m = 1)) := by
  cases h with
  | stop _ _ h0 => exact ⟨h0, Or.inl ⟨rfl, rfl⟩⟩
  | done _ k hk hl => exact absurd rfl hr
  | more _ k evs1 _ m1 hk hl h1 =>
    have hk1 : k = 1 := by omega
    subst hk1
    cases h1 with
    | stop _ _ h0 => exact ⟨h0, Or.inr ⟨rfl, rfl⟩⟩
    | done _ k hk hl => exact absurd rfl hr
    | more _ k evs2 _ m2 hk hl h2 => omega

theorem read_cmd_fail (w : World) (buf : List byte)
    (hb : min 2 w.input.length ≤ buf.length)
    (hs : supplies w.rsched w.input.length 2 = false) :
    ∃ (buf1 : List byte) (w1 : World) (r : Int),
      read_cmd w buf = .ok (-1, buf1, w1) ∧ r ≤ 0 ∧
      ((w1.log = w.log ++ [Event.read 0 2 r] ∧ buf1 = buf ∧ w1.input = w.input) ∨
        (w1.log = w.log ++ [Event.read 0 2 1, Event.read 1 1 r] ∧ 1 ≤ w.input.length ∧
          buf1 = store buf 0 (w.input.take 1) ∧ w1.input = w.input.drop 1)) ∧
      w1.output = w.output ∧ w1.wsched = w.wsched := by
  obtain ⟨r, buf1, w1, evs, m, h1, h2, h3, h4, h5, h6, h7, h8, h9, h10, h11, h12⟩ :=
    read_exact_run w buf 2 hb
  have hr : r ≠ 2 := by
    intro e
    have := (h12 (by omega)).mp (by rw [e]; rfl)
    rw [hs] at this
    exact Bool.noConfusion this
  obtain ⟨hr0, hcase⟩ := exactRun_two_fail h2 hr
  refine ⟨buf1, w1, r, by simp only [read_cmd, h1, hr, ne_eq, not_false_eq_true, if_true],
    hr0, ?_, h8, h9⟩
  rcases hcase with ⟨e1, e2⟩ | ⟨e1, e2⟩
  · subst e1 e2
    exact Or.inl ⟨h3, by simpa [store_nil] using h5, by simpa using h6⟩
  · subst e1 e2
    exact Or.inr ⟨h3, h4, h5, h6⟩

/-! ## The command loop -/

theorem supplies_zero_avail (sched : List Int) (n : Nat) (hn : 0 < n) :
    supplies sched 0 n = false := by
  obtain ⟨k, rfl⟩ : ∃ k, n = k + 1 := ⟨n - 1, by omega⟩
  cases sched with
  | nil => simp [supplies]
  | cons h rest => simp [supplies]

theorem dispatch_fst (foo bar : Int → Int) (w : World) (fn arg res : Int) :
    (dispatch foo bar w fn arg res).1 =
      if fn = 1 then foo arg else if fn = 2 then bar arg else res := by
  unfold dispatch; split_ifs <;> rfl

theorem dispatch_snd (foo bar : Int → Int) (w : World) (fn arg res : Int) :
    (dispatch foo bar w fn arg res).2.input = w.input ∧
    (dispatch foo bar w fn arg res).2.rsched = w.rsched ∧
    (dispatch foo bar w fn arg res).2.output = w.output ∧
    (dispatch foo bar w fn arg res).2.wsched = w.wsched ∧
    (dispatch foo bar w fn arg res).2.log = w.log ++
      (if fn = 1 then [Event.foo arg] else if fn = 2 then [Event.bar arg] else []) := by
  unfold dispatch; split_ifs <;> simp

theorem main_loop_stop (foo bar : Int → Int) (fuel : Nat) (w : World) (buf : List byte)
    (res : Int) (hin : w.input = []) :
    ∃ (w1 : World) (r : Int),
      main_loop foo bar (fuel + 1) w buf res = .ok (w1, buf, res) ∧ r ≤ 0 ∧
      w1.log = w.log ++ [Event.read 0 2 r] ∧ w1.output = w.output ∧ w1.input = [] := by
  obtain ⟨buf1, w1, r, h1, h2, h3, h4, -⟩ :=
    read_cmd_fail w buf (by rw [hin]; simp) (by rw [hin]; exact supplies_zero_avail _ 2 (by omega))
  rcases h3 with ⟨e1, e2, e3⟩ | ⟨_, e2, _⟩
  · subst e2
    refine ⟨w1, r, ?_, h2, e1, h4, by rw [e3, hin]⟩
    simp [main_loop, h1]
  · rw [hin] at e2; simp at e2

theorem main_loop_request (foo bar : Int → Int) (fuel : Nat) (w : World) (buf : List byte)
    (res : Int) (op x : byte) (rest : List byte)
    (hin : w.input = 0 :: 2 :: op :: x :: rest) (hb : 2 ≤ buf.length)
    (hrs : ∀ h ∈ w.rsched, (0 : Int) ≤ h) (hws : ∀ h ∈ w.wsched, (0 : Int) < h) :
    ∃ (w1 : World) (buf1 : List byte) (evr evw : List Event),
      main_loop foo bar (fuel + 1) w buf res =
        main_loop foo bar fuel w1 buf1
          (if (op.val : Int) = 1 then foo x.val else if (op.val : Int) = 2 then bar x.val
            else res) ∧
      w1.input = rest ∧
      w1.output = w.output ++ [0, 1, to_byte
        (if (op.val : Int) = 1 then foo x.val else if (op.val : Int) = 2 then bar x.val
          else res)] ∧
      buf1.length = buf.length ∧
      (∀ h ∈ w1.rsched, (0 : Int) ≤ h) ∧ (∀ h ∈ w1.wsched, (0 : Int) < h) ∧
      w1.log = w.log ++ evr ++
        (if (op.val : Int) = 1 then [Event.foo x.val]
          else if (op.val : Int) = 2 then [Event.bar x.val] else []) ++ evw ∧
      (∀ e ∈ evr, ∃ a b i, e = Event.read a b i) ∧
      (∀ e ∈ evw, ∃ a b i, e = Event.write a b i) := by
  obtain ⟨buf1, w1, h1, hbuf1, hin1, hrs1, ho1, hws1, evr, hl1, her⟩ :=
    read_cmd_ok w buf 0 2 [op, x] rest (by simpa using hin) (by simp [decode_len]) hb (by simpa using hb) hrs
  have hlen1 : buf1.length = buf.length := by
    rw [hbuf1, store_length, store_length]
    · simpa using hb
    · rw [store_length]
      · simpa using hb
      · simpa using hb
  have hshape : buf1 = op :: x :: buf.drop 2 := by
    rw [hbuf1, store_zero, store_zero]; simp
  have e0 : buf1[0]? = some op := by rw [hshape]; rfl
  have e1 : buf1[1]? = some x := by rw [hshape]; simp
  obtain ⟨d1, d2, d3, d4, d5⟩ := dispatch_snd foo bar w1 op.val x.val res
  have dres := dispatch_fst foo bar w1 op.val x.val res
  rcases hd : dispatch foo bar w1 op.val x.val res with ⟨res1, w2⟩
  rw [hd] at d1 d2 d3 d4 d5 dres
  simp only at d1 d2 d3 d4 d5 dres
  obtain ⟨w3, h3, ho3, hin3, hrs3, hws3, evw, hl3, hew⟩ :=
    write_cmd_ok w2 (buf1.set 0 (to_byte res1)) 1 (by rw [List.length_set]; omega)
      (by rw [d4, hws1]; exact hws)
  refine ⟨w3, buf1.set 0 (to_byte res1), evr, evw, ?_, by rw [hin3, d1, hin1], ?_,
    by rw [List.length_set, hlen1], by rw [hrs3, d2]; exact hrs1, hws3, ?_, her, hew⟩
  · rw [main_loop, h1]
    simp only [e0, e1, hd, h3, ← dres]
    simp
  · rw [ho3, d3, ho1, ← dres, hshape]
    rfl
  · rw [hl3, d5, hl1]

theorem to_byte_val (v : Int) : ((to_byte v).val : Int) = v % 256 := by
  have h1 : 0 ≤ v % 256 := Int.emod_nonneg _ (by decide)
  have h2 : v % 256 < 256 := Int.emod_lt_of_pos _ (by decide)
  show (((v % 256).toNat % 256 : Nat) : Int) = v % 256
  omega

theorem main_loop_requests (foo bar : Int → Int) :
    ∀ (reqs : List (byte × byte)) (fuel : Nat) (w : World) (buf : List byte) (res : Int),
    reqs.length < fuel → (∀ q ∈ reqs, q.1 = 1 ∨ q.1 = 2) →
    w.input = request_frames reqs → 2 ≤ buf.length →
    (∀ h ∈ w.rsched, (0 : Int) ≤ h) → (∀ h ∈ w.wsched, (0 : Int) < h) →
    ∃ (w1 : World) (buf1 : List byte) (res1 : Int),
      main_loop foo bar fuel w buf res = .ok (w1, buf1, res1) ∧
      w1.output = w.output ++ response_frames foo bar reqs := by
  intro reqs
  induction reqs with
  | nil =>
    intro fuel w buf res hf _ hin _ _ _
    obtain ⟨k, rfl⟩ : ∃ k, fuel = k + 1 := ⟨fuel - 1, by simp at hf; omega⟩
    obtain ⟨w1, r, h1, -, -, h2, -⟩ := main_loop_stop foo bar k w buf res hin
    exact ⟨w1, buf, res, h1, by simpa [response_frames] using h2⟩
  | cons q qs ih =>
    intro fuel w buf res hf hops hin hb hrs hws
    obtain ⟨op, x⟩ := q
    obtain ⟨k, rfl⟩ : ∃ k, fuel = k + 1 := ⟨fuel - 1, by simp at hf; omega⟩
    obtain ⟨w1, buf1, evr, evw, h1, h2, h3, h4, h5, h6, -⟩ :=
      main_loop_request foo bar k w buf res op x (request_frames qs) hin hb hrs hws
    obtain ⟨w2, buf2, res2, e1, e2⟩ :=
      ih k w1 buf1 _ (by simp at hf; omega) (fun q hq => hops q (List.mem_cons_of_mem _ hq))
        h2 (by omega) h5 h6
    refine ⟨w2, buf2, res2, by rw [h1, e1], ?_⟩
    rw [e2, h3]
    have hop : (op.val : Int) = 1 ∨ (op.val : Int) = 2 := by
      rcases hops (op, x) (by simp) with h | h
      · left; simp only at h; rw [h]; rfl
      · right; simp only at h; rw [h]; rfl
    rcases hop with hop | hop
    · simp [response_frames, hop]
    · simp [response_frames, hop]

theorem read_cmd_frame (w : World) (buf : List byte) (hi lo : byte) (tail : List byte)
    (hin : w.input = hi :: lo :: tail) (hb2 : 2 ≤ buf.length)
    (hfit : min (decode_len hi lo) tail.length ≤ buf.length) :
    ∃ (r : Int) (buf1 : List byte) (w1 : World) (evs : List Event),
      read_cmd w buf = .ok (r, buf1, w1) ∧
      w1.log = w.log ++ evs ∧ (∀ e ∈ evs, ∃ a b i, e = Event.read a b i) ∧
      w1.output = w.output ∧ w1.wsched = w.wsched ∧
      (r ≤ 0 ∨ (r = decode_len hi lo ∧ decode_len hi lo ≤ tail.length ∧
        w1.input = tail.drop (decode_len hi lo) ∧
        buf1.take (decode_len hi lo) = tail.take (decode_len hi lo))) := by
  obtain ⟨r0, buf1, w1, evs1, m1, h1, h2, h3, h4, h5, h6, -, h8, h9, -⟩ :=
    read_exact_run w buf 2 (le_trans (Nat.min_le_left _ _) hb2)
  by_cases hr0 : r0 = 2
  · subst hr0
    have hm1 : m1 = 2 := by
      rcases exactRun_result h2 with ⟨_, e⟩ | ⟨e, _⟩
      · omega
      · omega
    subst hm1
    rw [hin] at h5 h6
    simp only [List.take_succ_cons, List.take_zero, List.drop_succ_cons, List.drop_zero]
      at h5 h6
    have hlen1 : buf1.length = buf.length := by
      rw [h5, store_length]; simpa using hb2
    have e0 : buf1[0]? = some hi := by rw [h5, store_zero]; simp
    have e1 : buf1[1]? = some lo := by rw [h5, store_zero]; simp
    obtain ⟨r, buf2, w2, evs2, m2, g1, g2, g3, g4, g5, g6, -, g8, g9, -⟩ :=
      read_exact_run w1 buf1 (decode_len hi lo) (by rw [h6, hlen1]; exact hfit)
    refine ⟨r, buf2, w2, evs1 ++ evs2, ?_, by rw [g3, h3, List.append_assoc], ?_,
      by rw [g8, h8], by rw [g9, h9], ?_⟩
    · simp only [read_cmd, h1, e0, e1, g1]
      simp
    · intro e he
      rcases List.mem_append.mp he with he | he
      · exact exactRun_events h2 e he
      · exact exactRun_events g2 e he
    · rcases exactRun_result g2 with ⟨e, em⟩ | ⟨e, _⟩
      · right
        rw [Nat.zero_add] at em
        subst em
        rw [h6] at g4 g5 g6
        refine ⟨e, g4, g6, ?_⟩
        rw [g5, store_take_zero _ _ _ (by rw [List.length_take]; omega), List.take_take,
          Nat.min_self]
      · exact Or.inl e
  · refine ⟨-1, buf1, w1, evs1, by simp only [read_cmd, h1, hr0, ne_eq, not_false_eq_true,
      if_true], h3, exactRun_events h2, h8, h9, Or.inl (by omega)⟩

/-! ## The fuel is never used up -/

theorem sys_read_cases (w : World) (buf : List byte) (off n : Nat) :
    sys_read w buf off n = .fault .bounds ∨
    ∃ (i : Int) (buf1 : List byte) (w1 : World),
      sys_read w buf off n = .ok (i, buf1, w1) ∧ i ≤ n ∧
      w1.input.length + i.toNat = w.input.length := by
  unfold sys_read
  by_cases h : read_hint w n < 0
  · right
    simp only [h, if_true]
    exact ⟨_, _, _, rfl, by omega, by simp [Int.toNat_of_nonpos (le_of_lt h)]⟩
  · simp only [h, if_false]
    split_ifs with hk
    · right
      have h1 : min (max (read_hint w n).toNat 1) (min n w.input.length) ≤ min n w.input.length :=
        Nat.min_le_right _ _
      have h2 : min n w.input.length ≤ n := Nat.min_le_left _ _
      have h3 : min n w.input.length ≤ w.input.length := Nat.min_le_right _ _
      refine ⟨_, _, _, rfl, by omega, ?_⟩
      simp only [Int.toNat_ofNat, List.length_drop]
      omega
    · exact Or.inl rfl

theorem read_exact_loop_cases (len : Nat) :
    ∀ (fuel : Nat) (w : World) (buf : List byte) (got : Nat),
    got ≤ len → len - got < fuel →
    read_exact_loop fuel w buf len got = .fault .bounds ∨
    ∃ (r : Int) (buf1 : List byte) (w1 : World),
      read_exact_loop fuel w buf len got = .ok (r, buf1, w1) ∧
      w1.input.length ≤ w.input.length ∧
      (0 < r → got < len → w1.input.length + (len - got) = w.input.length) := by
  intro fuel
  induction fuel with
  | zero => intro w buf got _ h; omega
  | succ fuel ih =>
    intro w buf got hg hf
    rw [read_exact_loop]
    rcases sys_read_cases w buf got (len - got) with h | ⟨i, buf1, w1, h, hi, hlen⟩
    · left; rw [h]
    · rw [h]
      by_cases hi0 : i ≤ 0
      · right
        exact ⟨i, buf1, w1, by simp only [hi0, if_true], by omega, fun hp => by omega⟩
      · obtain ⟨k, rfl⟩ := Int.eq_ofNat_of_zero_le (show 0 ≤ i by omega)
        simp only [Int.toNat_ofNat] at hlen
        simp only [hi0, if_false, Int.toNat_ofNat]
        by_cases hlt : got + k < len
        · simp only [hlt, if_true]
          rcases ih w1 buf1 (got + k) (by omega) (by omega) with h2 | ⟨r, buf2, w2, h2, h3, h4⟩
          · exact Or.inl h2
          · exact Or.inr ⟨r, buf2, w2, h2, by omega, fun hp _ => by have := h4 hp hlt; omega⟩
        · right
          simp only [hlt, if_false]
          exact ⟨len, buf1, w1, rfl, by omega, fun _ _ => by omega⟩

theorem read_cmd_cases (w : World) (buf : List byte) :
    read_cmd w buf = .fault .bounds ∨
    ∃ (r : Int) (buf1 : List byte) (w1 : World),
      read_cmd w buf = .ok (r, buf1, w1) ∧
      (0 < r → w1.input.length < w.input.length) := by
  unfold read_cmd read_exact
  rcases read_exact_loop_cases 2 3 w buf 0 (by omega) (by omega) with h | ⟨r0, buf1, w1, h, h1, h2⟩
  · left; rw [h]
  · rw [h]
    by_cases hr : r0 = 2
    · subst hr
      have hlen := h2 (by decide) (by decide)
      simp only [ne_eq, not_true_eq_false, if_false]
      rcases hb0 : buf1[0]? with _ | hi
      · exact Or.inl rfl
      · rcases hb1 : buf1[1]? with _ | lo
        · exact Or.inl rfl
        · simp only
          rcases read_exact_loop_cases (decode_len hi lo) (decode_len hi lo + 1) w1 buf1 0
            (by omega) (by omega) with g | ⟨r, buf2, w2, g, g1, -⟩
          · exact Or.inl g
          · exact Or.inr ⟨r, buf2, w2, g, fun _ => by omega⟩
    · right
      exact ⟨-1, buf1, w1, by simp only [ne_eq, hr, not_false_eq_true, if_true],
        fun hp => by omega⟩

theorem sys_write_cases (w : World) (buf : List byte) (off n : Nat) :
    sys_write w buf off n = .fault .bounds ∨
    ∃ (i : Int) (w1 : World),
      sys_write w buf off n = .ok (i, w1) ∧ i ≤ n ∧ w1.input = w.input := by
  unfold sys_write
  by_cases h : write_hint w n ≤ 0
  · right
    simp only [h, if_true]
    exact ⟨_, _, rfl, by omega, rfl⟩
  · simp only [h, if_false]
    split_ifs with hk
    · right
      have h1 : min (write_hint w n).toNat n ≤ n := Nat.min_le_right _ _
      exact ⟨_, _, rfl, by omega, rfl⟩
    · exact Or.inl rfl

theorem write_exact_loop_cases (buf : List byte) (len : Nat) :
    ∀ (fuel : Nat) (w : World) (wrote : Nat),
    wrote ≤ len → len - wrote < fuel →
    write_exact_loop fuel w buf len wrote = .fault .bounds ∨
    ∃ (r : Int) (w1 : World),
      write_exact_loop fuel w buf len wrote = .ok (r, w1) ∧ w1.input = w.input := by
  intro fuel
  induction fuel with
  | zero => intro w wrote _ h; omega
  | succ fuel ih =>
    intro w wrote hg hf
    rw [write_exact_loop]
    rcases sys_write_cases w buf wrote (len - wrote) with h | ⟨i, w1, h, hi, hin⟩
    · left; rw [h]
    · rw [h]
      by_cases hi0 : i ≤ 0
      · exact Or.inr ⟨i, w1, by simp only [hi0, if_true], hin⟩
      · obtain ⟨k, rfl⟩ := Int.eq_ofNat_of_zero_le (show 0 ≤ i by omega)
        simp only [hi0, if_false, Int.toNat_ofNat]
        by_cases hlt : wrote + k < len
        · simp only [hlt, if_true]
          rcases ih w1 (wrote + k) (by omega) (by omega) with h2 | ⟨r, w2, h2, h3⟩
          · exact Or.inl h2
          · exact Or.inr ⟨r, w2, h2, by rw [h3, hin]⟩
        · simp only [hlt, if_false]
          exact Or.inr ⟨len, w1, rfl, hin⟩

theorem write_cmd_cases (w : World) (buf : List byte) (len : Nat) :
    write_cmd w buf len = .fault .bounds ∨
    ∃ (r : Int) (w1 : World), write_cmd w buf len = .ok (r, w1) ∧ w1.input = w.input := by
  unfold write_cmd write_exact
  rcases write_exact_loop_cases [len_hi len] 1 (1 + 1) w 0 (by omega) (by omega) with
    h | ⟨r1, w1, h, e1⟩
  · left; simp only [h]
  · rcases write_exact_loop_cases [len_lo len] 1 (1 + 1) w1 0 (by omega) (by omega) with
      g | ⟨r2, w2, g, e2⟩
    · left; simp only [h, g]
    · rcases write_exact_loop_cases buf len (len + 1) w2 0 (by omega) (by omega) with
        k | ⟨r3, w3, k, e3⟩
      · left; simp only [h, g, k]
      · exact Or.inr ⟨r3, w3, by simp only [h, g, k], by rw [e3, e2, e1]⟩

theorem main_loop_fuel (foo bar : Int → Int) :
    ∀ (fuel : Nat) (w : World) (buf : List byte) (res : Int),
    w.input.length < fuel → main_loop foo bar fuel w buf res ≠ .fault .fuel := by
  intro fuel
  induction fuel with
  | zero => intro w buf res h; omega
  | succ fuel ih =>
    intro w buf res hf
    rw [main_loop]
    rcases read_cmd_cases w buf with h | ⟨r, buf1, w1, h, hlen⟩
    · rw [h]; simp
    · rw [h]
      by_cases hr : r > 0
      · have hl := hlen hr
        simp only [hr, if_true]
        rcases hb0 : buf1[0]? with _ | fn
        · simp
        · rcases hb1 : buf1[1]? with _ | arg
          · simp
          · simp only
            obtain ⟨d1, -⟩ := dispatch_snd foo bar w1 fn.val arg.val res
            rcases hd : dispatch foo bar w1 fn.val arg.val res with ⟨res1, w2⟩
            rw [hd] at d1
            simp only at d1
            rcases write_cmd_cases w2 (buf1.set 0 (to_byte res1)) 1 with g | ⟨r3, w3, g, e3⟩
            · rw [g]; simp
            · rw [g]
              exact ih w3 _ res1 (by rw [e3, d1]; omega)
      · simp [hr]

theorem main_fuel_suffices (foo bar : Int → Int) (w : World) (junk : Nat → byte)
    (res0 : Int) : main foo bar w junk res0 ≠ .fault .fuel :=
  main_loop_fuel foo bar (w.input.length + 1) w _ res0 (by omega)

theorem read_exact_fuel_suffices (w : World) (buf : List byte) (len : Nat) :
    read_exact w buf len ≠ .fault .fuel := by
  unfold read_exact
  rcases read_exact_loop_cases len (len + 1) w buf 0 (by omega) (by omega) with
    h | ⟨r, buf1, w1, h, -⟩
  · rw [h]; simp
  · rw [h]; simp

theorem write_exact_fuel_suffices (w : World) (buf : List byte) (len : Nat) :
    write_exact w buf len ≠ .fault .fuel := by
  unfold write_exact
  rcases write_exact_loop_cases buf len (len + 1) w 0 (by omega) (by omega) with
    h | ⟨r, w1, h, -⟩
  · rw [h]; simp
  · rw [h]; simp

/-! ## What a run that ends in a result has done -/

theorem sys_read_inv (w : World) (buf : List byte) (off n : Nat) (i : Int)
    (buf1 : List byte) (w1 : World) (h : sys_read w buf off n = .ok (i, buf1, w1)) :
    i ≤ n ∧ i.toNat ≤ w.input.length ∧ (0 < i → off + i.toNat ≤ buf.length) ∧
    buf1 = store buf off (w.input.take i.toNat) ∧
    w1.input = w.input.drop i.toNat ∧
    w1.rsched = w.rsched.tail ∧
    w1.log = w.log ++ [Event.read off n i] ∧
    w1.output = w.output ∧ w1.wsched = w.wsched ∧
    (i < 0 → i ∈ w.rsched) ∧
    (i = 0 → 0 < n → w.input = []) := by
  unfold sys_read at h
  by_cases hh : read_hint w n < 0
  · simp only [hh, if_true, Res.ok.injEq, Prod.mk.injEq] at h
    obtain ⟨rfl, rfl, rfl⟩ := h
    have h0 : (read_hint w n).toNat = 0 := Int.toNat_of_nonpos (by omega)
    refine ⟨by omega, by omega, fun hp => by omega, ?_, ?_, rfl, rfl, rfl, rfl,
      fun _ => read_hint_mem w n hh, fun hz => by omega⟩
    · rw [h0, List.take_zero, store_nil]
    · rw [h0, List.drop_zero]
  · simp only [hh, if_false] at h
    have h1 : min (max (read_hint w n).toNat 1) (min n w.input.length) ≤ min n w.input.length :=
      Nat.min_le_right _ _
    have h2 : min n w.input.length ≤ n := Nat.min_le_left _ _
    have h3 : min n w.input.length ≤ w.input.length := Nat.min_le_right _ _
    split_ifs at h with hk
    simp only [Res.ok.injEq, Prod.mk.injEq] at h
    obtain ⟨rfl, rfl, rfl⟩ := h
    simp only [Int.toNat_ofNat]
    refine ⟨by omega, by omega, fun _ => hk, trivial, trivial, trivial, trivial, trivial,
      trivial, fun hn => by omega, fun hz hn => ?_⟩
    have hk0 : min (max (read_hint w n).toNat 1) (min n w.input.length) = 0 := by omega
    have : w.input.length = 0 := by
      simp only [Nat.min_def, Nat.max_def] at hk0; split_ifs at hk0 <;> omega
    exact List.length_eq_zero.mp this

theorem read_exact_loop_inv (len : Nat) :
    ∀ (fuel : Nat) (w : World) (buf : List byte) (got : Nat) (r : Int)
      (buf1 : List byte) (w1 : World),
    read_exact_loop fuel w buf len got = .ok (r, buf1, w1) →
    ∃ (evs : List Event) (m : Nat),
      ExactRun Event.read len got evs r m ∧
      w1.log = w.log ++ evs ∧
      m ≤ w.input.length ∧
      buf1 = store buf got (w.input.take m) ∧
      buf1.length = buf.length ∧
      w1.input = w.input.drop m ∧
      w1.rsched = w.rsched.drop evs.length ∧
      w1.output = w.output ∧ w1.wsched = w.wsched ∧
      (r < 0 → r ∈ w.rsched) ∧
      (r = 0 → got < len → w1.input = []) := by
  intro fuel
  induction fuel with
  | zero => intro w buf got r buf1 w1 h; simp [read_exact_loop] at h
  | succ fuel ih =>
    intro w buf got r buf2 w2 h
    rw [read_exact_loop] at h
    rcases hs : sys_read w buf got (len - got) with ⟨i, buf1, w1⟩ | f
    · rw [hs] at h
      obtain ⟨hi1, hi2, hfit, hbuf, hin, hrs, hl, hout, hws, herr, heof⟩ :=
        sys_read_inv w buf got (len - got) i buf1 w1 hs
      by_cases hi : i ≤ 0
      · simp only [hi, if_true, Res.ok.injEq, Prod.mk.injEq] at h
        obtain ⟨rfl, rfl, rfl⟩ := h
        have ht : i.toNat = 0 := Int.toNat_of_nonpos hi
        rw [ht] at hbuf hin
        simp only [List.take_zero, List.drop_zero, store_nil] at hbuf hin
        refine ⟨[Event.read got (len - got) i], 0, ExactRun.stop got i hi, hl, Nat.zero_le _,
          by simpa [store_nil] using hbuf, by rw [hbuf], by simpa using hin,
          by simp [hrs, ← List.drop_one], hout, hws, fun hneg => herr hneg, fun hz hlt => ?_⟩
        rw [hin]; exact heof hz (by omega)
      · obtain ⟨k, rfl⟩ := Int.eq_ofNat_of_zero_le (show 0 ≤ i by omega)
        have hk : 0 < k := by omega
        have hkl : got + k ≤ len := by omega
        simp only [Int.toNat_ofNat] at hi2 hbuf hin hfit
        have hfit1 := hfit (by omega)
        have hlen1 : buf1.length = buf.length := by
          rw [hbuf, store_length]; rw [List.length_take]; omega
        simp only [hi, if_false, Int.toNat_ofNat] at h
        by_cases hlt : got + k < len
        · simp only [hlt, if_true] at h
          obtain ⟨evs, m, h2, h3, h4, h5, h5l, h6, h7, h8, h9, h10, h11⟩ :=
            ih w1 buf1 (got + k) r buf2 w2 h
          rw [hin, List.length_drop] at h4
          refine ⟨_, k + m, ExactRun.more got k evs r m hk hlt h2, by simp [h3, hl], by omega,
            ?_, by rw [h5l, hlen1], ?_, ?_, by rw [h8, hout], by rw [h9, hws],
            fun hneg => ?_, fun hz _ => h11 hz hlt⟩
          · rw [h5, hbuf, hin, List.take_add]
            have hlen : (List.take k w.input).length = k := by rw [List.length_take]; omega
            have := store_store buf got (List.take k w.input)
              (List.take m (List.drop k w.input)) (by omega)
            rw [hlen] at this
            exact this
          · rw [h6, hin, List.drop_drop, Nat.add_comm]
          · rw [h7, hrs, List.length_cons, ← List.drop_one, List.drop_drop, Nat.add_comm]
          · have := h10 hneg
            rw [hrs] at this
            exact List.mem_of_mem_tail this
        · simp only [hlt, if_false, Res.ok.injEq, Prod.mk.injEq] at h
          obtain ⟨rfl, rfl, rfl⟩ := h
          exact ⟨[Event.read got (len - got) k], k, ExactRun.done got k hk (by omega), hl, hi2,
            hbuf, hlen1, hin, by simp [hrs, ← List.drop_one], hout, hws, fun hneg => by omega,
            fun hz _ => by omega⟩
    · rw [hs] at h; simp at h

theorem exactRun_last {mk : Nat → Nat → Int → Event} {len got : Nat}
    {evs : List Event} {r : Int} {m : Nat} (h : ExactRun mk len got evs r m) (hr : r ≤ 0) :
    evs.getLast? = some (mk (got + m) (len - (got + m)) r) := by
  induction h with
  | stop got r _ => simp
  | done got k hk hl => omega
  | more got k evs r m hk hl h1 ih =>
    have := ih hr
    cases evs with
    | nil => simp at this
    | cons e es =>
      rw [List.getLast?_cons_cons, this, Nat.add_assoc]

theorem read_exact_inv (w : World) (buf : List byte) (len : Nat) (r : Int)
    (buf1 : List byte) (w1 : World) (h : read_exact w buf len = .ok (r, buf1, w1)) :
    ∃ (evs : List Event) (m : Nat),
      ExactRun Event.read len 0 evs r m ∧
      w1.log = w.log ++ evs ∧
      m ≤ w.input.length ∧
      buf1 = store buf 0 (w.input.take m) ∧
      buf1.length = buf.length ∧
      w1.input = w.input.drop m ∧
      w1.rsched = w.rsched.drop evs.length ∧
      w1.output = w.output ∧ w1.wsched = w.wsched ∧
      (r < 0 → r ∈ w.rsched) ∧
      (r = 0 → 0 < len → w1.input = []) :=
  read_exact_loop_inv len (len + 1) w buf 0 r buf1 w1 h

/-- What a `read_cmd` call that ended in a result has done: the run for the
two length bytes, and, when that run returned 2, the run for the payload of
the decoded length. -/
theorem read_cmd_inv (w : World) (buf : List byte) (r : Int) (buf2 : List byte)
    (w2 : World) (h : read_cmd w buf = .ok (r, buf2, w2)) :
    ∃ (r0 : Int) (buf1 : List byte) (w1 : World) (evs1 : List Event) (m1 : Nat),
      read_exact w buf 2 = .ok (r0, buf1, w1) ∧
      ExactRun Event.read 2 0 evs1 r0 m1 ∧
      w1.log = w.log ++ evs1 ∧ m1 ≤ w.input.length ∧
      buf1 = store buf 0 (w.input.take m1) ∧ buf1.length = buf.length ∧
      w1.input = w.input.drop m1 ∧
      (r0 = 0 → w1.input = []) ∧
      ((r0 ≠ 2 ∧ r = -1 ∧ buf2 = buf1 ∧ w2 = w1) ∨
        (r0 = 2 ∧ ∃ (hi lo : byte) (evs2 : List Event) (m2 : Nat),
          buf1[0]? = some hi ∧ buf1[1]? = some lo ∧
          ExactRun Event.read (decode_len hi lo) 0 evs2 r m2 ∧
          w2.log = w1.log ++ evs2 ∧ m2 ≤ w1.input.length ∧
          buf2 = store buf1 0 (w1.input.take m2) ∧ buf2.length = buf1.length ∧
          w2.input = w1.input.drop m2 ∧
          (r = 0 → 0 < decode_len hi lo → w2.input = []))) := by
  unfold read_cmd at h
  rcases h1 : read_exact w buf 2 with ⟨r0, buf1, w1⟩ | f
  · rw [h1] at h
    obtain ⟨evs1, m1, e1, e2, e3, e4, e5, e6, -, -, -, -, e11⟩ :=
      read_exact_inv w buf 2 r0 buf1 w1 h1
    refine ⟨r0, buf1, w1, evs1, m1, rfl, e1, e2, e3, e4, e5, e6, fun hz => e11 hz (by omega), ?_⟩
    by_cases hr0 : r0 = 2
    · right
      simp only [hr0, ne_eq, not_true_eq_false, if_false] at h
      rcases hb0 : buf1[0]? with _ | hi
      · rw [hb0] at h; simp at h
      · rcases hb1 : buf1[1]? with _ | lo
        · rw [hb0, hb1] at h; simp at h
        · rw [hb0, hb1] at h
          simp only at h
          obtain ⟨evs2, m2, g1, g2, g3, g4, g5, g6, -, -, -, -, g11⟩ :=
            read_exact_inv w1 buf1 (decode_len hi lo) r buf2 w2 h
          exact ⟨hr0, hi, lo, evs2, m2, rfl, rfl, g1, g2, g3, g4, g5, g6, g11⟩
    · left
      simp only [ne_eq, hr0, not_false_eq_true, if_true, Res.ok.injEq, Prod.mk.injEq] at h
      obtain ⟨rfl, rfl, rfl⟩ := h
      exact ⟨hr0, rfl, rfl, rfl⟩
  · rw [h1] at h; simp at h

theorem exactRun_calls {mk : Nat → Nat → Int → Event} {len got : Nat}
    {evs : List Event} {r : Int} {m : Nat} (h : ExactRun mk len got evs r m)
    (hg : got < len) :
    1 ≤ evs.length ∧ evs.length ≤ len - got ∧
    ∀ e ∈ evs, ∃ (off : Nat) (i : Int), e = mk off (len - off) i ∧ got ≤ off ∧ off < len ∧
      i ≤ (len - off : Nat) := by
  induction h with
  | stop got r hr =>
    refine ⟨by simp, by simp; omega, fun e he => ?_⟩
    rw [List.mem_singleton] at he
    exact ⟨got, r, he, Nat.le_refl _, hg, by omega⟩
  | done got k hk hl =>
    refine ⟨by simp, by simp; omega, fun e he => ?_⟩
    rw [List.mem_singleton] at he
    exact ⟨got, k, he, Nat.le_refl _, hg, by omega⟩
  | more got k evs r m hk hl _ ih =>
    obtain ⟨h1, h2, h3⟩ := ih hl
    refine ⟨by simp, by simp only [List.length_cons]; omega, fun e he => ?_⟩
    rcases List.mem_cons.mp he with he | he
    · exact ⟨got, k, he, Nat.le_refl _, hg, by omega⟩
    · obtain ⟨off, i, e1, e2, e3, e4⟩ := h3 e he
      exact ⟨off, i, e1, by omega, e3, e4⟩

/-- The three `write_exact` runs of `write_cmd`, under any schedule: all three
are always made, and the value returned is that of the third. -/
theorem write_cmd_run (w : World) (buf : List byte) (len : Nat) (hb : len ≤ buf.length) :
    ∃ (r1 r2 r : Int) (w1 : World) (evs1 evs2 evs3 : List Event) (m1 m2 m3 : Nat),
      write_cmd w buf len = .ok (r, w1) ∧
      ExactRun Event.write 1 0 evs1 r1 m1 ∧
      ExactRun Event.write 1 0 evs2 r2 m2 ∧
      ExactRun Event.write len 0 evs3 r m3 ∧
      w1.log = w.log ++ evs1 ++ evs2 ++ evs3 ∧
      w1.output = w.output ++ [len_hi len].take m1 ++ [len_lo len].take m2 ++ buf.take m3 ∧
      w1.input = w.input ∧ w1.rsched = w.rsched ∧
      w1.wsched = w.wsched.drop (evs1.length + evs2.length + evs3.length) := by
  obtain ⟨r1, w1, evs1, m1, h1, x1, l1, o1, i1, s1, d1, -⟩ :=
    write_exact_run w [len_hi len] 1 (by simp)
  obtain ⟨r2, w2, evs2, m2, h2, x2, l2, o2, i2, s2, d2, -⟩ :=
    write_exact_run w1 [len_lo len] 1 (by simp)
  obtain ⟨r3, w3, evs3, m3, h3, x3, l3, o3, i3, s3, d3, -⟩ := write_exact_run w2 buf len hb
  refine ⟨r1, r2, r3, w3, evs1, evs2, evs3, m1, m2, m3, by simp only [write_cmd, h1, h2, h3],
    x1, x2, x3, by rw [l3, l2, l1], by rw [o3, o2, o1], by rw [i3, i2, i1], by rw [s3, s2, s1],
    ?_⟩
  rw [d3, d2, d1, List.drop_drop, List.drop_drop]
  congr 1; omega

/-- One pass of the command loop over a frame with a payload of at least one
byte that fits the buffer, with failure-free reads and any write schedule:
the opcode and the operand are the first two bytes of the buffer after
`read_cmd`, the handler call is logged between the reads and the writes, and
the loop goes on with the rest of the input whatever the writes returned. -/
theorem main_loop_frame (foo bar : Int → Int) (fuel : Nat) (w : World) (buf : List byte)
    (res : Int) (hi lo : byte) (payload rest : List byte)
    (hin : w.input = hi :: lo :: (payload ++ rest))
    (hlen : payload.length = decode_len hi lo) (hpos : 1 ≤ payload.length)
    (hb2 : 2 ≤ buf.length) (hbL : payload.length ≤ buf.length)
    (hrs : ∀ h ∈ w.rsched, (0 : Int) ≤ h) :
    ∃ (fn arg : byte) (w1 : World) (buf1 : List byte) (evr evw : List Event),
      (store (store buf 0 [hi, lo]) 0 payload)[0]? = some fn ∧
      (store (store buf 0 [hi, lo]) 0 payload)[1]? = some arg ∧
      main_loop foo bar (fuel + 1) w buf res =
        main_loop foo bar fuel w1 buf1
          (if (fn.val : Int) = 1 then foo arg.val else if (fn.val : Int) = 2 then bar arg.val
            else res) ∧
      w1.input = rest ∧ buf1.length = buf.length ∧
      (∀ h ∈ w1.rsched, (0 : Int) ≤ h) ∧
      w1.log = w.log ++ evr ++
        (if (fn.val : Int) = 1 then [Event.foo arg.val]
          else if (fn.val : Int) = 2 then [Event.bar arg.val] else []) ++ evw ∧
      (∀ e ∈ evr, ∃ a b i, e = Event.read a b i) ∧
      (∀ e ∈ evw, ∃ a b i, e = Event.write a b i) ∧
      w1.wsched = w.wsched.drop evw.length ∧
      ((∀ h ∈ w.wsched, (0 : Int) < h) →
        w1.output = w.output ++ [0, 1, to_byte
          (if (fn.val : Int) = 1 then foo arg.val else if (fn.val : Int) = 2 then bar arg.val
            else res)]) := by
  obtain ⟨buf1, w1, h1, hbuf1, hin1, hrs1, ho1, hws1, evr, hl1, her⟩ :=
    read_cmd_ok w buf hi lo payload rest hin hlen hb2 hbL hrs
  have hlen0 : (store buf 0 [hi, lo]).length = buf.length := by
    rw [store_length]; simpa using hb2
  have hlen1 : buf1.length = buf.length := by
    rw [hbuf1, store_length, hlen0]
    rw [hlen0]; simpa using hbL
  obtain ⟨fn, e0⟩ : ∃ fn, buf1[0]? = some fn :=
    ⟨buf1[0], List.getElem?_eq_getElem (by omega)⟩
  obtain ⟨arg, e1⟩ : ∃ arg, buf1[1]? = some arg :=
    ⟨buf1[1], List.getElem?_eq_getElem (by omega)⟩
  obtain ⟨d1, d2, d3, d4, d5⟩ := dispatch_snd foo bar w1 fn.val arg.val res
  have dres := dispatch_fst foo bar w1 fn.val arg.val res
  rcases hd : dispatch foo bar w1 fn.val arg.val res with ⟨res1, w2⟩
  rw [hd] at d1 d2 d3 d4 d5 dres
  simp only at d1 d2 d3 d4 d5 dres
  have hset : 1 ≤ (buf1.set 0 (to_byte res1)).length := by rw [List.length_set]; omega
  obtain ⟨r1, r2, r3, w3, evs1, evs2, evs3, m1, m2, m3, h3, x1, x2, x3, hl3, ho3, hin3, hrs3,
    hws3⟩ := write_cmd_run w2 (buf1.set 0 (to_byte res1)) 1 hset
  refine ⟨fn, arg, w3, buf1.set 0 (to_byte res1), evr, evs1 ++ evs2 ++ evs3,
    by rw [← hbuf1]; exact e0, by rw [← hbuf1]; exact e1, ?_, by rw [hin3, d1, hin1],
    by rw [List.length_set, hlen1], by rw [hrs3, d2]; exact hrs1, ?_, her, ?_, ?_, fun hws => ?_⟩
  · rw [main_loop, h1]
    have hp : (0 : Int) < (payload.length : Int) := by omega
    simp only [hp, gt_iff_lt, if_true, e0, e1, hd, h3, ← dres]
  · rw [hl3, d5, hl1]; simp only [List.append_assoc]
  · intro e he
    simp only [List.mem_append] at he
    rcases he with (he | he) | he
    · exact exactRun_events x1 e he
    · exact exactRun_events x2 e he
    · exact exactRun_events x3 e he
  · rw [hws3, d4, hws1]; simp only [List.length_append]
  · obtain ⟨w3', h3', ho3', -⟩ := write_cmd_ok w2 (buf1.set 0 (to_byte res1)) 1 hset
      (by rw [d4, hws1]; exact hws)
    rw [h3] at h3'
    simp only [Res.ok.injEq, Prod.mk.injEq] at h3'
    obtain ⟨-, rfl⟩ := h3'
    rw [ho3', d3, ho1, ← dres]
    have : List.take 1 (buf1.set 0 (to_byte res1)) = [to_byte res1] := by
      cases buf1 with
      | nil => simp at hlen1; omega
      | cons a t => simp
    rw [this]; rfl

theorem request_frames_append (xs ys : List (byte × byte)) :
    request_frames (xs ++ ys) = request_frames xs ++ request_frames ys := by
  induction xs with
  | nil => rfl
  | cons q qs ih => obtain ⟨a, b⟩ := q; simp [request_frames, ih]

theorem request_frames_length (xs : List (byte × byte)) :
    (request_frames xs).length = 4 * xs.length := by
  induction xs with
  | nil => rfl
  | cons q qs ih => obtain ⟨a, b⟩ := q; simp [request_frames, ih]; omega

theorem byte_val_ne (op : byte) (k : byte) (h : op ≠ k) : ¬ ((op.val : Int) = (k.val : Int)) := by
  intro e
  exact h (Fin.ext (by exact_mod_cast e))

/-- The loop over a run of requests with any opcodes: it gets through all of
them and writes three bytes for each. -/
theorem main_loop_prefix (foo bar : Int → Int) (rest : List byte) :
    ∀ (pre : List (byte × byte)) (fuel : Nat) (w : World) (buf : List byte) (res : Int),
    w.input = request_frames pre ++ rest → 2 ≤ buf.length →
    (∀ h ∈ w.rsched, (0 : Int) ≤ h) → (∀ h ∈ w.wsched, (0 : Int) < h) →
    ∃ (w1 : World) (buf1 : List byte) (res1 : Int) (out : List byte),
      main_loop foo bar (fuel + pre.length) w buf res = main_loop foo bar fuel w1 buf1 res1 ∧
      w1.input = rest ∧ w1.output = w.output ++ out ∧ out.length = 3 * pre.length ∧
      buf1.length = buf.length ∧
      (∀ h ∈ w1.rsched, (0 : Int) ≤ h) ∧ (∀ h ∈ w1.wsched, (0 : Int) < h) := by
  intro pre
  induction pre with
  | nil =>
    intro fuel w buf res hin _ hrs hws
    exact ⟨w, buf, res, [], rfl, by simpa [request_frames] using hin, by simp, rfl, rfl, hrs, hws⟩
  | cons q qs ih =>
    intro fuel w buf res hin hb hrs hws
    obtain ⟨op, x⟩ := q
    obtain ⟨w1, buf1, evr, evw, h1, h2, h3, h4, h5, h6, -⟩ :=
      main_loop_request foo bar (fuel + qs.length) w buf res op x (request_frames qs ++ rest)
        (by simpa [request_frames] using hin) hb hrs hws
    obtain ⟨w2, buf2, res2, out, g1, g2, g3, g4, g5, g6, g7⟩ :=
      ih fuel w1 buf1 _ h2 (by omega) h5 h6
    refine ⟨w2, buf2, res2,
      [0, 1, to_byte (if (op.val : Int) = 1 then foo x.val
        else if (op.val : Int) = 2 then bar x.val else res)] ++ out,
      ?_, g2, by rw [g3, h3, List.append_assoc], ?_, by rw [g5, h4], g6, g7⟩
    · rw [List.length_cons, ← Nat.add_assoc, h1, g1]
    · simp only [List.length_append, List.length_cons, List.length_nil, g4]; omega

/-- The loop over a run of requests whose opcodes are neither 1 nor 2: `res`
is left as it was and every response carries it. -/
theorem main_loop_unknowns (foo bar : Int → Int) (rest : List byte) :
    ∀ (qs : List (byte × byte)) (fuel : Nat) (w : World) (buf : List byte) (res : Int),
    (∀ q ∈ qs, q.1 ≠ 1 ∧ q.1 ≠ 2) →
    w.input = request_frames qs ++ rest → 2 ≤ buf.length →
    (∀ h ∈ w.rsched, (0 : Int) ≤ h) → (∀ h ∈ w.wsched, (0 : Int) < h) →
    ∃ (w1 : World) (buf1 : List byte),
      main_loop foo bar (fuel + qs.length) w buf res = main_loop foo bar fuel w1 buf1 res ∧
      w1.input = rest ∧ w1.output = w.output ++ repeat_frame (to_byte res) qs.length ∧
      buf1.length = buf.length ∧
      (∀ h ∈ w1.rsched, (0 : Int) ≤ h) ∧ (∀ h ∈ w1.wsched, (0 : Int) < h) := by
  intro qs
  induction qs with
  | nil =>
    intro fuel w buf res _ hin _ hrs hws
    exact ⟨w, buf, rfl, by simpa [request_frames] using hin, by simp [repeat_frame], rfl, hrs,
      hws⟩
  | cons q qs ih =>
    intro fuel w buf res hunk hin hb hrs hws
    obtain ⟨op, x⟩ := q
    obtain ⟨hn1, hn2⟩ := hunk (op, x) (by simp)
    have c1 : ¬ (op.val : Int) = 1 := byte_val_ne op 1 hn1
    have c2 : ¬ (op.val : Int) = 2 := byte_val_ne op 2 hn2
    obtain ⟨w1, buf1, evr, evw, h1, h2, h3, h4, h5, h6, -⟩ :=
      main_loop_request foo bar (fuel + qs.length) w buf res op x (request_frames qs ++ rest)
        (by simpa [request_frames] using hin) hb hrs hws
    simp only [c1, c2, if_false] at h1 h3
    obtain ⟨w2, buf2, g1, g2, g3, g5, g6, g7⟩ :=
      ih fuel w1 buf1 res (fun q hq => hunk q (List.mem_cons_of_mem _ hq)) h2 (by omega) h5 h6
    refine ⟨w2, buf2, ?_, g2, ?_, by rw [g5, h4], g6, g7⟩
    · rw [List.length_cons, ← Nat.add_assoc, h1, g1]
    · rw [g3, h3]; simp [repeat_frame]

theorem exactRun_requests {mk : Nat → Nat → Int → Event} {len got : Nat}
    {evs : List Event} {r : Int} {m : Nat} (h : ExactRun mk len got evs r m)
    (hg : got ≤ len) :
    ∀ e ∈ evs, ∃ (off : Nat) (i : Int), e = mk off (len - off) i ∧ got ≤ off ∧ off ≤ len := by
  induction h with
  | stop got r hr =>
    intro e he
    rw [List.mem_singleton] at he
    exact ⟨got, r, he, Nat.le_refl _, hg⟩
  | done got k hk hl =>
    intro e he
    rw [List.mem_singleton] at he
    exact ⟨got, k, he, Nat.le_refl _, hg⟩
  | more got k evs r m hk hl _ ih =>
    intro e he
    rcases List.mem_cons.mp he with he | he
    · exact ⟨got, k, he, Nat.le_refl _, hg⟩
    · obtain ⟨off, i, e1, e2, e3⟩ := ih (by omega) e he
      exact ⟨off, i, e1, by omega, e3⟩

/-- With failure-free reads and the whole transfer available, a transfer
longer than the buffer ends in a store past the end of the buffer. -/
theorem read_exact_loop_overflow (len : Nat) :
    ∀ (fuel : Nat) (w : World) (buf : List byte) (got : Nat),
    buf.length < len → got < len → len - got < fuel → len - got ≤ w.input.length →
    (∀ h ∈ w.rsched, (0 : Int) ≤ h) →
    read_exact_loop fuel w buf len got = .fault .bounds := by
  intro fuel
  induction fuel with
  | zero => intro w buf got _ _ h; omega
  | succ fuel ih =>
    intro w buf got hb hg hf ha hs
    have hh : ¬ read_hint w (len - got) < 0 := by
      have := read_hint_nonneg w (len - got) hs; omega
    have h1 : min (max (read_hint w (len - got)).toNat 1) (min (len - got) w.input.length) ≤
        len - got := le_trans (Nat.min_le_right _ _) (Nat.min_le_left _ _)
    have h2 : 0 < min (max (read_hint w (len - got)).toNat 1) (min (len - got) w.input.length) := by
      simp only [Nat.min_def, Nat.max_def]; split_ifs <;> omega
    rw [read_exact_loop]
    unfold sys_read
    simp only [hh, if_false]
    split_ifs with hk
    · simp only
      have hk0 : ¬ ((min (max (read_hint w (len - got)).toNat 1)
          (min (len - got) w.input.length) : Nat) : Int) ≤ 0 := by omega
      have hlt : got + min (max (read_hint w (len - got)).toNat 1)
          (min (len - got) w.input.length) < len := by omega
      simp only [hk0, if_false, Int.toNat_ofNat, hlt, if_true]
      apply ih
      · rw [store_length]
        · exact hb
        · rw [List.length_take]; omega
      · exact hlt
      · omega
      · simp only [List.length_drop]; omega
      · intro h hm
        exact hs h (List.mem_of_mem_tail hm)
    · rfl

/-- The last call of a `read_cmd` that returned zero or less: a failed read,
a read at end-of-stream, or the zero-length payload read of a frame with
declared length 0. -/
theorem read_cmd_end (w : World) (buf : List byte) (r : Int) (buf2 : List byte) (w2 : World)
    (h : read_cmd w buf = .ok (r, buf2, w2)) (hr : r ≤ 0) :
    ∃ (off n : Nat) (i : Int), w2.log.getLast? = some (Event.read off n i) ∧
      (i < 0 ∨ (i = 0 ∧ 0 < n ∧ w2.input = []) ∨ (i = 0 ∧ n = 0 ∧ off = 0)) := by
  obtain ⟨r0, b1, v1, evs1, m1, -, e1, e2, -, -, -, -, e7, hc⟩ := read_cmd_inv w buf r buf2 w2 h
  rcases hc with ⟨hr0, -, -, hw⟩ | ⟨-, hi, lo, evs2, m2, -, -, g1, g2, -, -, -, -, g7⟩
  · subst hw
    have hres : r0 ≤ 0 ∧ m1 < 2 := by
      rcases exactRun_result e1 with ⟨e, _⟩ | ⟨e, em⟩
      · exact absurd e hr0
      · exact ⟨e, by have := em (by omega); omega⟩
    have hlast := exactRun_last e1 hres.1
    refine ⟨0 + m1, 2 - (0 + m1), r0, by rw [e2, List.getLast?_append, hlast]; rfl, ?_⟩
    by_cases hz : r0 = 0
    · exact Or.inr (Or.inl ⟨hz, by omega, e7 hz⟩)
    · exact Or.inl (by omega)
  · have hlast := exactRun_last g1 hr
    refine ⟨0 + m2, decode_len hi lo - (0 + m2), r,
      by rw [g2, List.getLast?_append, hlast]; rfl, ?_⟩
    by_cases hz : r = 0
    · have hle := exactRun_le g1 (Nat.zero_le _)
      rcases Nat.eq_zero_or_pos (decode_len hi lo) with h0 | h0
      · exact Or.inr (Or.inr ⟨hz, by omega, by omega⟩)
      · have hm : 0 + m2 < decode_len hi lo := by
          rcases exactRun_result g1 with ⟨e, _⟩ | ⟨_, em⟩
          · omega
          · exact em (by omega)
        exact Or.inr (Or.inl ⟨hz, by omega, g7 hz h0⟩)
    · exact Or.inl (by omega)

theorem main_loop_end (foo bar : Int → Int) :
    ∀ (fuel : Nat) (w : World) (buf : List byte) (res : Int)
      (w1 : World) (buf1 : List byte) (res1 : Int),
    main_loop foo bar fuel w buf res = .ok (w1, buf1, res1) →
    ∃ (off n : Nat) (i : Int), w1.log.getLast? = some (Event.read off n i) ∧
      (i < 0 ∨ (i = 0 ∧ 0 < n ∧ w1.input = []) ∨ (i = 0 ∧ n = 0 ∧ off = 0)) := by
  intro fuel
  induction fuel with
  | zero => intro w buf res w1 buf1 res1 h; simp [main_loop] at h
  | succ fuel ih =>
    intro w buf res w3 buf3 res3 h
    rw [main_loop] at h
    rcases hrc : read_cmd w buf with ⟨r, buf1, w1⟩ | f
    · rw [hrc] at h
      by_cases hr : r > 0
      · simp only [hr, if_true] at h
        rcases hb0 : buf1[0]? with _ | fn
        · rw [hb0] at h; simp at h
        · rcases hb1 : buf1[1]? with _ | arg
          · rw [hb0, hb1] at h; simp at h
          · rw [hb0, hb1] at h
            simp only at h
            rcases hd : dispatch foo bar w1 fn.val arg.val res with ⟨res1, w2⟩
            rw [hd] at h
            simp only at h
            rcases hwc : write_cmd w2 (buf1.set 0 (to_byte res1)) 1 with ⟨rv, w4⟩ | f
            · rw [hwc] at h
              exact ih w4 _ res1 w3 buf3 res3 h
            · rw [hwc] at h; simp at h
      · simp only [hr, if_false, Res.ok.injEq, Prod.mk.injEq] at h
        obtain ⟨rfl, rfl, rfl⟩ := h
        exact read_cmd_end w buf r buf1 w1 hrc (by omega)
    · rw [hrc] at h; simp at h

theorem filter_calls_reads (evs : List Event) (h : ∀ e ∈ evs, ∃ a b i, e = Event.read a b i) :
    evs.filter Event.is_call = [] := by
  rw [List.filter_eq_nil_iff]
  intro e he
  obtain ⟨a, b, i, rfl⟩ := h e he
  simp [Event.is_call]

theorem filter_calls_writes (evs : List Event) (h : ∀ e ∈ evs, ∃ a b i, e = Event.write a b i) :
    evs.filter Event.is_call = [] := by
  rw [List.filter_eq_nil_iff]
  intro e he
  obtain ⟨a, b, i, rfl⟩ := h e he
  simp [Event.is_call]

/-- The loop over requests with opcodes 1 and 2, with failure-free reads and
any write schedule: every request is dispatched, whatever the writes
returned. -/
theorem main_loop_requests_calls (foo bar : Int → Int) :
    ∀ (reqs : List (byte × byte)) (fuel : Nat) (w : World) (buf : List byte) (res : Int),
    reqs.length < fuel → (∀ q ∈ reqs, q.1 = 1 ∨ q.1 = 2) →
    w.input = request_frames reqs → 2 ≤ buf.length →
    (∀ h ∈ w.rsched, (0 : Int) ≤ h) →
    ∃ (w1 : World) (buf1 : List byte) (res1 : Int),
      main_loop foo bar fuel w buf res = .ok (w1, buf1, res1) ∧ w1.input = [] ∧
      w1.log.filter Event.is_call = w.log.filter Event.is_call ++ calls_of reqs := by
  intro reqs
  induction reqs with
  | nil =>
    intro fuel w buf res hf _ hin _ _
    obtain ⟨k, rfl⟩ : ∃ k, fuel = k + 1 := ⟨fuel - 1, by simp at hf; omega⟩
    obtain ⟨w1, r, h1, -, h3, -, h5⟩ := main_loop_stop foo bar k w buf res hin
    exact ⟨w1, buf, res, h1, h5, by simp [h3, calls_of, Event.is_call]⟩
  | cons q qs ih =>
    intro fuel w buf res hf hops hin hb hrs
    obtain ⟨op, x⟩ := q
    obtain ⟨k, rfl⟩ : ∃ k, fuel = k + 1 := ⟨fuel - 1, by simp at hf; omega⟩
    obtain ⟨fn, arg, w1, buf1, evr, evw, e0, e1, h1, h2, h3, h4, h5, h6, h7, -⟩ :=
      main_loop_frame foo bar k w buf res 0 2 [op, x] (request_frames qs)
        (by simpa [request_frames] using hin) (by simp [decode_len]) (by simp) hb
        (by simpa using hb) hrs
    have hfn : fn = op := by
      rw [store_zero, store_zero] at e0
      simpa using e0.symm
    have harg : arg = x := by
      rw [store_zero, store_zero] at e1
      simpa using e1.symm
    subst hfn harg
    obtain ⟨w2, buf2, res2, g1, g2, g3⟩ :=
      ih k w1 buf1 _ (by simp at hf; omega) (fun q hq => hops q (List.mem_cons_of_mem _ hq))
        h2 (by omega) h4
    refine ⟨w2, buf2, res2, by rw [h1, g1], g2, ?_⟩
    have hop : (fn.val : Int) = 1 ∨ (¬ (fn.val : Int) = 1 ∧ (fn.val : Int) = 2) := by
      rcases hops (fn, arg) (by simp) with h | h
      · left; simp only at h; rw [h]; rfl
      · right; simp only at h; rw [h]; exact ⟨by decide, rfl⟩
    rw [g3, h5]
    simp only [List.filter_append, filter_calls_reads evr h6, filter_calls_writes evw h7,
      List.append_nil, List.append_assoc]
    rcases hop with c1 | ⟨c1, c2⟩
    · simp [c1, calls_of, Event.is_call]
    · simp [c1, c2, calls_of, Event.is_call]


/-! ## The claims -/

/-- C1: for a payload `p` of length `L ≤ 65535`, whatever way the successful
writes and the reads are split into partial transfers, `read_cmd` run on the
bytes that `write_cmd(p, L)` emitted, with a buffer of at least `max(L, 2)`
bytes, returns `L` and leaves the first `L` bytes of the buffer equal to `p`. -/
theorem frame_roundtrip (p : List byte) (hL : p.length ≤ 65535)
    (ww : World) (hws : ∀ h ∈ ww.wsched, (0 : Int) < h) :
    ∃ (ww1 : World) (emitted : List byte),
      write_cmd ww p p.length = .ok ((p.length : Int), ww1) ∧
      ww1.output = ww.output ++ emitted ∧
      ∀ (rw : World) (buf : List byte), rw.input = emitted →
        (∀ h ∈ rw.rsched, (0 : Int) ≤ h) → max p.length 2 ≤ buf.length →
        ∃ (buf1 : List byte) (rw1 : World),
          read_cmd rw buf = .ok ((p.length : Int), buf1, rw1) ∧
          buf1.take p.length = p := by
  obtain ⟨ww1, h1, h2, -⟩ := write_cmd_ok ww p p.length (Nat.le_refl _) hws
  rw [List.take_length] at h2
  refine ⟨ww1, _, h1, h2, fun rw buf hin hs hb => ?_⟩
  have hb2 : 2 ≤ buf.length := le_trans (le_max_right _ _) hb
  have hbL : p.length ≤ buf.length := le_trans (le_max_left _ _) hb
  obtain ⟨buf1, rw1, e1, e2, -⟩ :=
    read_cmd_ok rw buf (len_hi p.length) (len_lo p.length) p []
      (by rw [hin, List.append_nil])
      (by rw [decode_len_encode]; omega) hb2 hbL hs
  exact ⟨buf1, rw1, e1, by rw [e2, store_take_zero _ _ _ (Nat.le_refl _), List.take_length]⟩

/-- Witness for C1: the payload `[5, 6, 7]`, written in pieces of one and two
bytes and read back one byte per `read` into a four-byte buffer. -/
theorem frame_roundtrip_witness :
    (([5, 6, 7] : List byte).length ≤ 65535 ∧
      ∀ h ∈ (World.start [] [] [1, 1, 2]).wsched, (0 : Int) < h) ∧
    ∃ (ww1 : World) (emitted : List byte),
      write_cmd (World.start [] [] [1, 1, 2]) [5, 6, 7] ([5, 6, 7] : List byte).length =
        .ok ((([5, 6, 7] : List byte).length : Int), ww1) ∧
      ww1.output = (World.start [] [] [1, 1, 2]).output ++ emitted ∧
      ∃ (buf1 : List byte) (rw1 : World),
        read_cmd (World.start emitted [1, 1, 1, 1, 1] []) [0, 0, 0, 0] =
          .ok ((([5, 6, 7] : List byte).length : Int), buf1, rw1) ∧
        buf1.take ([5, 6, 7] : List byte).length = [5, 6, 7] := by
  obtain ⟨ww1, emitted, h1, h2, h3⟩ :=
    frame_roundtrip [5, 6, 7] (by decide) (World.start [] [] [1, 1, 2]) (by decide)
  exact ⟨⟨by decide, by decide⟩, ww1, emitted, h1, h2,
    h3 (World.start emitted [1, 1, 1, 1, 1] []) [0, 0, 0, 0] rfl
      (fun h hh => by simp only [World.start, List.mem_replicate, List.mem_cons,
        List.mem_singleton, or_self, List.not_mem_nil, or_false] at hh; omega)
      (by decide)⟩

/-- C2: for a length `L ≤ 65535` the prefix bytes of `write_cmd` are
`(L >> 8) & 0xff` and `L & 0xff`, and the decoding of `read_cmd` gives `L`
back; every pair of bytes decodes to a value of at most 65535 that encodes
to the same pair. -/
theorem length_bytes_roundtrip (L : Nat) (hL : L ≤ 65535) :
    (len_hi L).val = (L >>> 8) &&& 0xff ∧ (len_lo L).val = L &&& 0xff ∧
    decode_len (len_hi L) (len_lo L) = L ∧
    ∀ hi lo : byte, decode_len hi lo ≤ 65535 ∧
      len_hi (decode_len hi lo) = hi ∧ len_lo (decode_len hi lo) = lo := by
  refine ⟨len_hi_bits L, len_lo_bits L, by rw [decode_len_encode]; omega, fun hi lo => ?_⟩
  have h1 := hi.isLt
  have h2 := lo.isLt
  refine ⟨by rw [decode_len_eq]; omega, Fin.ext ?_, Fin.ext ?_⟩
  · rw [len_hi_val, decode_len_eq]; omega
  · rw [len_lo_val, decode_len_eq]; omega

/-- Witness for C2: the length `0x1234`. -/
theorem length_bytes_roundtrip_witness :
    (0x1234 ≤ 65535) ∧
    (len_hi 0x1234).val = (0x1234 >>> 8) &&& 0xff ∧ (len_lo 0x1234).val = 0x1234 &&& 0xff ∧
    decode_len (len_hi 0x1234) (len_lo 0x1234) = 0x1234 ∧
    ∀ hi lo : byte, decode_len hi lo ≤ 65535 ∧
      len_hi (decode_len hi lo) = hi ∧ len_lo (decode_len hi lo) = lo :=
  ⟨by decide, length_bytes_roundtrip 0x1234 (by decide)⟩

/-- C4: with every underlying write successful (possibly short), `write_cmd`
on a payload `p` of length `L ≤ 65535` returns `L` and appends to the output
exactly the two bytes `(L >> 8) & 0xff`, `L & 0xff` followed by `p`. -/
theorem write_cmd_envelope (w : World) (p : List byte)
    (_hL : p.length ≤ 65535) (hs : ∀ h ∈ w.wsched, (0 : Int) < h) :
    ∃ w1 : World, write_cmd w p p.length = .ok ((p.length : Int), w1) ∧
      w1.output = w.output ++ (len_hi p.length :: len_lo p.length :: p) ∧
      (len_hi p.length).val = (p.length >>> 8) &&& 0xff ∧
      (len_lo p.length).val = p.length &&& 0xff := by
  obtain ⟨w1, h1, h2, -⟩ := write_cmd_ok w p p.length (Nat.le_refl _) hs
  exact ⟨w1, h1, by simpa using h2, len_hi_bits _, len_lo_bits _⟩

/-- Witness for C4: a three-byte payload written one byte at a time. -/
theorem write_cmd_envelope_witness :
    (([5, 6, 7] : List byte).length ≤ 65535 ∧
      ∀ h ∈ (World.start [] [] [1, 1, 1, 1, 1]).wsched, (0 : Int) < h) ∧
    ∃ w1 : World,
      write_cmd (World.start [] [] [1, 1, 1, 1, 1]) [5, 6, 7] ([5, 6, 7] : List byte).length =
        .ok ((([5, 6, 7] : List byte).length : Int), w1) ∧
      w1.output = (World.start [] [] [1, 1, 1, 1, 1]).output ++
        (len_hi ([5, 6, 7] : List byte).length :: len_lo ([5, 6, 7] : List byte).length ::
          [5, 6, 7]) ∧
      (len_hi ([5, 6, 7] : List byte).length).val =
        (([5, 6, 7] : List byte).length >>> 8) &&& 0xff ∧
      (len_lo ([5, 6, 7] : List byte).length).val =
        ([5, 6, 7] : List byte).length &&& 0xff :=
  ⟨⟨by decide, by decide⟩,
    write_cmd_envelope (World.start [] [] [1, 1, 1, 1, 1]) [5, 6, 7] (by decide) (by decide)⟩

/-- C5: `write_exact` on a buffer that holds the `n` bytes issues a chain of
`write` calls, each for the outstanding bytes at the unwritten offset
(`ExactRun`).  If every call returns a positive count, it returns `n` and has
emitted the `n` bytes in order.  A call that returns zero or a negative value
is the last call issued, and its value is what `write_exact` returns. -/
theorem write_exact_retries (w : World) (buf : List byte) (n : Nat)
    (_hn : 1 ≤ n) (hb : n ≤ buf.length) :
    ∃ (r : Int) (w1 : World) (evs : List Event) (m : Nat),
      write_exact w buf n = .ok (r, w1) ∧ w1.log = w.log ++ evs ∧
      ExactRun Event.write n 0 evs r m ∧
      w1.output = w.output ++ buf.take m ∧
      ((∀ a b i, Event.write a b i ∈ evs → (0 : Int) < i) →
        r = n ∧ w1.output = w.output ++ buf.take n) ∧
      (∀ a b i, Event.write a b i ∈ evs → i ≤ 0 →
        r = i ∧ evs.getLast? = some (Event.write a b i)) := by
  obtain ⟨r, w1, evs, m, h1, h2, h3, h4, -, -, -, -⟩ := write_exact_run w buf n hb
  refine ⟨r, w1, evs, m, h1, h3, h2, h4, fun hp => ?_,
    exactRun_fail_last (fun _ _ _ _ _ _ h => by injection h) h2⟩
  obtain ⟨e1, e2⟩ := exactRun_all_pos h2 hp
  rw [Nat.zero_add] at e2
  exact ⟨e1, by rw [h4, e2]⟩

/-- Witness for C5: a three-byte buffer written with the kernel accepting two
bytes and then failing with `-1`. -/
theorem write_exact_retries_witness :
    (1 ≤ 3 ∧ 3 ≤ ([7, 8, 9] : List byte).length) ∧
    ∃ (r : Int) (w1 : World) (evs : List Event) (m : Nat),
      write_exact (World.start [] [] [2, -1]) [7, 8, 9] 3 = .ok (r, w1) ∧
      w1.log = (World.start [] [] [2, -1]).log ++ evs ∧
      ExactRun Event.write 3 0 evs r m ∧
      w1.output = (World.start [] [] [2, -1]).output ++ ([7, 8, 9] : List byte).take m ∧
      ((∀ a b i, Event.write a b i ∈ evs → (0 : Int) < i) →
        r = (3 : Nat) ∧
        w1.output = (World.start [] [] [2, -1]).output ++ ([7, 8, 9] : List byte).take 3) ∧
      (∀ a b i, Event.write a b i ∈ evs → i ≤ 0 →
        r = i ∧ evs.getLast? = some (Event.write a b i)) :=
  ⟨by decide, write_exact_retries (World.start [] [] [2, -1]) [7, 8, 9] 3 (by decide) (by decide)⟩

/-- C6: when the command loop receives the request frame `[0, 2, 1, x]` the
response byte it writes is `foo(x)` reduced to 8 bits, and when it receives
`[0, 2, 2, x]` it is `bar(x)` reduced to 8 bits; `foo` and `bar` are
arbitrary total functions, and the transfers may be split in any way. -/
theorem dispatch_correct (foo bar : Int → Int) (x : byte) (wf wb : World)
    (junk : Nat → byte) (res0 : Int)
    (hf : wf.input = [0, 2, 1, x]) (hb : wb.input = [0, 2, 2, x])
    (hrf : ∀ h ∈ wf.rsched, (0 : Int) ≤ h) (hwf : ∀ h ∈ wf.wsched, (0 : Int) < h)
    (hrb : ∀ h ∈ wb.rsched, (0 : Int) ≤ h) (hwb : ∀ h ∈ wb.wsched, (0 : Int) < h) :
    (∃ (w1 : World) (buf1 : List byte) (res1 : Int) (b : byte),
      main foo bar wf junk res0 = .ok (w1, buf1, res1) ∧
      w1.output = wf.output ++ [0, 1, b] ∧ (b.val : Int) = foo x.val % 256) ∧
    (∃ (w1 : World) (buf1 : List byte) (res1 : Int) (b : byte),
      main foo bar wb junk res0 = .ok (w1, buf1, res1) ∧
      w1.output = wb.output ++ [0, 1, b] ∧ (b.val : Int) = bar x.val % 256) := by
  constructor
  · obtain ⟨w1, buf1, res1, h1, h2⟩ :=
      main_loop_requests foo bar [(1, x)] (wf.input.length + 1) wf ((List.range 100).map junk)
        res0 (by rw [hf]; simp) (by simp) (by rw [hf]; rfl) (by simp) hrf hwf
    exact ⟨w1, buf1, res1, to_byte (foo x.val), h1, by simpa [response_frames] using h2,
      to_byte_val _⟩
  · obtain ⟨w1, buf1, res1, h1, h2⟩ :=
      main_loop_requests foo bar [(2, x)] (wb.input.length + 1) wb ((List.range 100).map junk)
        res0 (by rw [hb]; simp) (by simp) (by rw [hb]; rfl) (by simp) hrb hwb
    exact ⟨w1, buf1, res1, to_byte (bar x.val), h1, by simpa [response_frames] using h2,
      to_byte_val _⟩

/-- Witness for C6: operand 5 with `foo x = x + 1` and `bar x = 2 * x`, the
`foo` request delivered one byte per `read`, the `bar` request in one piece. -/
theorem dispatch_correct_witness :
    ((World.start [0, 2, 1, 5] [1, 1, 1, 1] [1]).input = [0, 2, 1, 5] ∧
      (World.start [0, 2, 2, 5] [] []).input = [0, 2, 2, 5] ∧
      (∀ h ∈ (World.start [0, 2, 1, 5] [1, 1, 1, 1] [1]).rsched, (0 : Int) ≤ h) ∧
      (∀ h ∈ (World.start [0, 2, 1, 5] [1, 1, 1, 1] [1]).wsched, (0 : Int) < h) ∧
      (∀ h ∈ (World.start [0, 2, 2, 5] [] []).rsched, (0 : Int) ≤ h) ∧
      (∀ h ∈ (World.start [0, 2, 2, 5] [] []).wsched, (0 : Int) < h)) ∧
    (∃ (w1 : World) (buf1 : List byte) (res1 : Int) (b : byte),
      main (fun v => v + 1) (fun v => 2 * v) (World.start [0, 2, 1, 5] [1, 1, 1, 1] [1])
        (fun _ => 0) 0 = .ok (w1, buf1, res1) ∧
      w1.output = (World.start [0, 2, 1, 5] [1, 1, 1, 1] [1]).output ++ [0, 1, b] ∧
      (b.val : Int) = (fun v => v + 1) ((5 : byte).val : Int) % 256) ∧
    (∃ (w1 : World) (buf1 : List byte) (res1 : Int) (b : byte),
      main (fun v => v + 1) (fun v => 2 * v) (World.start [0, 2, 2, 5] [] [])
        (fun _ => 0) 0 = .ok (w1, buf1, res1) ∧
      w1.output = (World.start [0, 2, 2, 5] [] []).output ++ [0, 1, b] ∧
      (b.val : Int) = (fun v => 2 * v) ((5 : byte).val : Int) % 256) :=
  ⟨⟨rfl, rfl, by decide, by decide, by decide, by decide⟩,
    dispatch_correct (fun v => v + 1) (fun v => 2 * v) 5
      (World.start [0, 2, 1, 5] [1, 1, 1, 1] [1]) (World.start [0, 2, 2, 5] [] [])
      (fun _ => 0) 0 rfl rfl (by decide) (by decide) (by decide) (by decide)⟩

/-- C7: for a sequence of requests `[op, x]` with opcodes 1 and 2, each sent
as a frame with the length bytes `0, 2` and followed by end-of-stream, the
total output of the command loop is the concatenation, in request order, of
the frames `[0, 1, h(x)]` with `h = foo` for opcode 1 and `h = bar` for
opcode 2. -/
theorem responses_in_order (foo bar : Int → Int) (reqs : List (byte × byte))
    (w : World) (junk : Nat → byte) (res0 : Int)
    (hops : ∀ q ∈ reqs, q.1 = 1 ∨ q.1 = 2)
    (hin : w.input = request_frames reqs)
    (hrs : ∀ h ∈ w.rsched, (0 : Int) ≤ h) (hws : ∀ h ∈ w.wsched, (0 : Int) < h) :
    ∃ (w1 : World) (buf1 : List byte) (res1 : Int),
      main foo bar w junk res0 = .ok (w1, buf1, res1) ∧
      w1.output = w.output ++ response_frames foo bar reqs := by
  have hlen : ∀ qs : List (byte × byte), qs.length ≤ (request_frames qs).length := by
    intro qs
    induction qs with
    | nil => simp
    | cons q qs ih => obtain ⟨a, b⟩ := q; simp [request_frames]; omega
  exact main_loop_requests foo bar reqs (w.input.length + 1) w ((List.range 100).map junk) res0
    (by rw [hin]; have := hlen reqs; omega) hops hin (by simp) hrs hws

/-- Witness for C7: the requests `[1, 5]` then `[2, 7]` with `foo x = x + 1`
and `bar x = 2 * x` give `[0, 1, 6]` then `[0, 1, 14]`. -/
theorem responses_in_order_witness :
    ((∀ q ∈ ([(1, 5), (2, 7)] : List (byte × byte)), q.1 = 1 ∨ q.1 = 2) ∧
      (World.start [0, 2, 1, 5, 0, 2, 2, 7] [1, 3] [2]).input =
        request_frames [(1, 5), (2, 7)] ∧
      (∀ h ∈ (World.start [0, 2, 1, 5, 0, 2, 2, 7] [1, 3] [2]).rsched, (0 : Int) ≤ h) ∧
      (∀ h ∈ (World.start [0, 2, 1, 5, 0, 2, 2, 7] [1, 3] [2]).wsched, (0 : Int) < h)) ∧
    response_frames (fun v => v + 1) (fun v => 2 * v) [(1, 5), (2, 7)] = [0, 1, 6, 0, 1, 14] ∧
    ∃ (w1 : World) (buf1 : List byte) (res1 : Int),
      main (fun v => v + 1) (fun v => 2 * v) (World.start [0, 2, 1, 5, 0, 2, 2, 7] [1, 3] [2])
        (fun _ => 0) 0 = .ok (w1, buf1, res1) ∧
      w1.output = (World.start [0, 2, 1, 5, 0, 2, 2, 7] [1, 3] [2]).output ++
        response_frames (fun v => v + 1) (fun v => 2 * v) [(1, 5), (2, 7)] :=
  ⟨⟨by simp, rfl, by decide, by decide⟩, by decide,
    responses_in_order (fun v => v + 1) (fun v => 2 * v) [(1, 5), (2, 7)]
      (World.start [0, 2, 1, 5, 0, 2, 2, 7] [1, 3] [2]) (fun _ => 0) 0
      (by simp) rfl (by decide) (by decide)⟩

/-- C8: if the input is at end-of-stream before any byte is sent, the command
loop terminates after the single `read` of its first `read_cmd` call: that
call is the only entry added to the log (no handler call, no `write`), the
output is unchanged, and so are the buffer and `res`. -/
theorem main_terminates_on_eof (foo bar : Int → Int) (w : World)
    (junk : Nat → byte) (res0 : Int) (hin : w.input = []) :
    ∃ (w1 : World) (r : Int),
      main foo bar w junk res0 = .ok (w1, (List.range 100).map junk, res0) ∧
      r ≤ 0 ∧ w1.log = w.log ++ [Event.read 0 2 r] ∧ w1.output = w.output := by
  obtain ⟨w1, r, h1, h2, h3, h4, -⟩ :=
    main_loop_stop foo bar w.input.length w ((List.range 100).map junk) res0 hin
  exact ⟨w1, r, h1, h2, h3, h4⟩

/-- Witness for C8: the empty stream. -/
theorem main_terminates_on_eof_witness :
    (World.start [] [] []).input = [] ∧
    ∃ (w1 : World) (r : Int),
      main (fun v => v + 1) (fun v => 2 * v) (World.start [] [] []) (fun _ => 0) 0 =
        .ok (w1, (List.range 100).map (fun _ => 0), 0) ∧
      r ≤ 0 ∧ w1.log = (World.start [] [] []).log ++ [Event.read 0 2 r] ∧
      w1.output = (World.start [] [] []).output :=
  ⟨rfl, main_terminates_on_eof (fun v => v + 1) (fun v => 2 * v) (World.start [] [] [])
    (fun _ => 0) 0 rfl⟩


/-- C10: if the stream ends or fails before two bytes have been delivered,
`read_cmd` returns `-1` and every `read` it issued is a read of the length
bytes: either one call for two bytes at offset 0 that returned `r ≤ 0`, or
that call returning one byte and a second call for one byte at offset 1 that
returned `r ≤ 0`.  No payload read follows, and at most one byte of the
stream is consumed. -/
theorem read_cmd_short_prefix (w : World) (buf : List byte) (hb : 2 ≤ buf.length)
    (hs : supplies w.rsched w.input.length 2 = false) :
    ∃ (buf1 : List byte) (w1 : World) (r : Int),
      read_cmd w buf = .ok (-1, buf1, w1) ∧ r ≤ 0 ∧
      ((w1.log = w.log ++ [Event.read 0 2 r] ∧ buf1 = buf ∧ w1.input = w.input) ∨
        (w1.log = w.log ++ [Event.read 0 2 1, Event.read 1 1 r] ∧ 1 ≤ w.input.length ∧
          buf1 = store buf 0 (w.input.take 1) ∧ w1.input = w.input.drop 1)) := by
  obtain ⟨buf1, w1, r, h1, h2, h3, -⟩ :=
    read_cmd_fail w buf (le_trans (Nat.min_le_left _ _) hb) hs
  exact ⟨buf1, w1, r, h1, h2, h3⟩

/-- Witness for C10: one byte, then end-of-stream. -/
theorem read_cmd_short_prefix_witness :
    (2 ≤ ([9, 9, 9] : List byte).length ∧
      supplies (World.start [0] [] []).rsched (World.start [0] [] []).input.length 2 = false) ∧
    ∃ (buf1 : List byte) (w1 : World) (r : Int),
      read_cmd (World.start [0] [] []) [9, 9, 9] = .ok (-1, buf1, w1) ∧ r ≤ 0 ∧
      ((w1.log = (World.start [0] [] []).log ++ [Event.read 0 2 r] ∧ buf1 = [9, 9, 9] ∧
          w1.input = (World.start [0] [] []).input) ∨
        (w1.log = (World.start [0] [] []).log ++ [Event.read 0 2 1, Event.read 1 1 r] ∧
          1 ≤ (World.start [0] [] []).input.length ∧
          buf1 = store [9, 9, 9] 0 ((World.start [0] [] []).input.take 1) ∧
          w1.input = (World.start [0] [] []).input.drop 1)) :=
  ⟨⟨by decide, by decide⟩,
    read_cmd_short_prefix (World.start [0] [] []) [9, 9, 9] (by decide) (by decide)⟩

set_option maxRecDepth 20000 in
/-- C11, as stated, fails: with the first `write` of a response returning 0,
`write_cmd` still issues the two following writes and returns 1, and the
command loop goes on to read and answer the next request. -/
theorem write_failure_ignored :
    write_cmd (World.start [] [] [0]) [6] 1 =
      .ok (1, { input := [], rsched := [], output := [1, 6], wsched := [],
                log := [Event.write 0 1 0, Event.write 0 1 1, Event.write 0 1 1] }) ∧
    main (fun v => v + 1) (fun v => 2 * v) (World.start [0, 2, 1, 5, 0, 2, 2, 7] [] [0])
      (fun _ => 0) 0 =
      .ok ({ input := [], rsched := [], output := [1, 6, 0, 1, 14], wsched := [],
             log := [Event.read 0 2 2, Event.read 0 2 2, Event.foo 5,
                     Event.write 0 1 0, Event.write 0 1 1, Event.write 0 1 1,
                     Event.read 0 2 2, Event.read 0 2 2, Event.bar 7,
                     Event.write 0 1 1, Event.write 0 1 1, Event.write 0 1 1,
                     Event.read 0 2 0] },
           (List.range 100).map (fun i => if i = 0 then 14 else if i = 1 then 7 else 0), 14) := by
  decide

/-- C11 (amended): `write_cmd` always makes its three `write_exact` runs and
returns the value of the third.  A failure while a length byte is sent is
dropped; a `write` of the payload that returns zero or less is the last
`write` issued and its value is what `write_cmd` returns.  The command loop
does not look at that value: with failure-free reads it dispatches every
request with opcode 1 or 2 and reads on to the end of the input, whatever the
writes returned. -/
theorem write_failure_not_fatal (foo bar : Int → Int) (reqs : List (byte × byte))
    (w : World) (junk : Nat → byte) (res0 : Int) (v : World) (buf : List byte) (len : Nat)
    (hb : len ≤ buf.length)
    (hops : ∀ q ∈ reqs, q.1 = 1 ∨ q.1 = 2)
    (hin : w.input = request_frames reqs)
    (hrs : ∀ h ∈ w.rsched, (0 : Int) ≤ h) :
    (∃ (r1 r2 r : Int) (v1 : World) (evs1 evs2 evs3 : List Event) (m1 m2 m3 : Nat),
      write_cmd v buf len = .ok (r, v1) ∧
      ExactRun Event.write 1 0 evs1 r1 m1 ∧
      ExactRun Event.write 1 0 evs2 r2 m2 ∧
      ExactRun Event.write len 0 evs3 r m3 ∧
      v1.log = v.log ++ evs1 ++ evs2 ++ evs3 ∧
      (∀ a b i, Event.write a b i ∈ evs3 → i ≤ 0 →
        r = i ∧ v1.log.getLast? = some (Event.write a b i))) ∧
    ∃ (w1 : World) (buf1 : List byte) (res1 : Int),
      main foo bar w junk res0 = .ok (w1, buf1, res1) ∧ w1.input = [] ∧
      w1.log.filter Event.is_call = w.log.filter Event.is_call ++ calls_of reqs := by
  constructor
  · obtain ⟨r1, r2, r, v1, evs1, evs2, evs3, m1, m2, m3, h1, x1, x2, x3, hl, -⟩ :=
      write_cmd_run v buf len hb
    refine ⟨r1, r2, r, v1, evs1, evs2, evs3, m1, m2, m3, h1, x1, x2, x3, hl, fun a b i hm hi => ?_⟩
    obtain ⟨e1, e2⟩ := exactRun_fail_last (fun _ _ _ _ _ _ h => by injection h) x3 a b i hm hi
    exact ⟨e1, by rw [hl, List.getLast?_append, e2]; rfl⟩
  · have hlen : reqs.length < w.input.length + 1 := by
      rw [hin, request_frames_length]; omega
    exact main_loop_requests_calls foo bar reqs (w.input.length + 1) w
      ((List.range 100).map junk) res0 hlen hops hin (by simp) hrs

/-- Witness for C11: two requests, the first `write` of the first response
returning 0. -/
theorem write_failure_not_fatal_witness :
    (1 ≤ ([6] : List byte).length ∧
      (∀ q ∈ ([(1, 5), (2, 7)] : List (byte × byte)), q.1 = 1 ∨ q.1 = 2) ∧
      (World.start [0, 2, 1, 5, 0, 2, 2, 7] [] [0]).input = request_frames [(1, 5), (2, 7)] ∧
      (∀ h ∈ (World.start [0, 2, 1, 5, 0, 2, 2, 7] [] [0]).rsched, (0 : Int) ≤ h)) ∧
    (∃ (r1 r2 r : Int) (v1 : World) (evs1 evs2 evs3 : List Event) (m1 m2 m3 : Nat),
      write_cmd (World.start [] [] [0]) [6] 1 = .ok (r, v1) ∧
      ExactRun Event.write 1 0 evs1 r1 m1 ∧
      ExactRun Event.write 1 0 evs2 r2 m2 ∧
      ExactRun Event.write 1 0 evs3 r m3 ∧
      v1.log = (World.start [] [] [0]).log ++ evs1 ++ evs2 ++ evs3 ∧
      (∀ a b i, Event.write a b i ∈ evs3 → i ≤ 0 →
        r = i ∧ v1.log.getLast? = some (Event.write a b i))) ∧
    ∃ (w1 : World) (buf1 : List byte) (res1 : Int),
      main (fun v => v + 1) (fun v => 2 * v) (World.start [0, 2, 1, 5, 0, 2, 2, 7] [] [0])
        (fun _ => 0) 0 = .ok (w1, buf1, res1) ∧ w1.input = [] ∧
      w1.log.filter Event.is_call =
        (World.start [0, 2, 1, 5, 0, 2, 2, 7] [] [0]).log.filter Event.is_call ++
          calls_of [(1, 5), (2, 7)] :=
  ⟨⟨by decide, by simp, rfl, by decide⟩,
    write_failure_not_fatal (fun v => v + 1) (fun v => 2 * v) [(1, 5), (2, 7)]
      (World.start [0, 2, 1, 5, 0, 2, 2, 7] [] [0]) (fun _ => 0) 0
      (World.start [] [] [0]) [6] 1 (by decide) (by simp) rfl (by decide)⟩

set_option maxRecDepth 20000 in
/-- C12, as stated, fails after a frame with declared length 0: its payload
read asks for zero bytes and returns 0, `read_cmd` returns 0, and the loop
terminates with the well-formed frame `0, 2, 1, 5` unread, although no read
returned end-of-stream or an error. -/
theorem empty_frame_ends_loop :
    main (fun v => v + 1) (fun v => 2 * v) (World.start [0, 0, 0, 2, 1, 5] [] [])
      (fun _ => 0) 0 =
      .ok ({ input := [0, 2, 1, 5], rsched := [], output := [], wsched := [],
             log := [Event.read 0 2 2, Event.read 0 0 0] },
           (List.range 100).map (fun _ => 0), 0) := by
  decide

/-- C12 (amended by the case of a frame with declared length 0): in every run
of the command loop that terminates, the last thing done is a `read` on the
input that returned a failure, or returned 0 at end-of-stream with no input
left, or was the zero-length payload read of a frame with declared length 0.
So the loop does not terminate while input remains unless a read failed or an
empty frame was received. -/
theorem loop_ends_on_read (foo bar : Int → Int) (w : World) (junk : Nat → byte)
    (res0 : Int) (w1 : World) (buf1 : List byte) (res1 : Int)
    (h : main foo bar w junk res0 = .ok (w1, buf1, res1)) :
    ∃ (off n : Nat) (i : Int), w1.log.getLast? = some (Event.read off n i) ∧
      (i < 0 ∨ (i = 0 ∧ 0 < n ∧ w1.input = []) ∨ (i = 0 ∧ n = 0 ∧ off = 0)) :=
  main_loop_end foo bar (w.input.length + 1) w _ res0 w1 buf1 res1 h

set_option maxRecDepth 20000 in
/-- Witness for C12: one request, then end-of-stream. -/
theorem loop_ends_on_read_witness :
    main (fun v => v + 1) (fun v => 2 * v) (World.start [0, 2, 1, 5] [] []) (fun _ => 0) 0 =
      .ok ({ input := [], rsched := [], output := [0, 1, 6], wsched := [],
             log := [Event.read 0 2 2, Event.read 0 2 2, Event.foo 5, Event.write 0 1 1,
                     Event.write 0 1 1, Event.write 0 1 1, Event.read 0 2 0] },
           (List.range 100).map (fun i => if i = 0 then 6 else if i = 1 then 5 else 0), 6) ∧
    ∃ (off n : Nat) (i : Int),
      ({ input := [], rsched := [], output := [0, 1, 6], wsched := [],
         log := [Event.read 0 2 2, Event.read 0 2 2, Event.foo 5, Event.write 0 1 1,
                 Event.write 0 1 1, Event.write 0 1 1, Event.read 0 2 0] } : World).log.getLast? =
        some (Event.read off n i) ∧
      (i < 0 ∨ (i = 0 ∧ 0 < n ∧
        ({ input := [], rsched := [], output := [0, 1, 6], wsched := [],
           log := [Event.read 0 2 2, Event.read 0 2 2, Event.foo 5, Event.write 0 1 1,
                   Event.write 0 1 1, Event.write 0 1 1, Event.read 0 2 0] } : World).input = []) ∨
        (i = 0 ∧ n = 0 ∧ off = 0)) :=
  ⟨by decide, loop_ends_on_read (fun v => v + 1) (fun v => 2 * v)
    (World.start [0, 2, 1, 5] [] []) (fun _ => 0) 0 _
    ((List.range 100).map (fun i => if i = 0 then 6 else if i = 1 then 5 else 0)) 6
    (by decide)⟩

/-- C13: whenever `read_cmd` succeeds (returns a positive value) the stream
began with two length bytes `hi, lo` declaring `L ≥ 1`, the value returned is
`L`, the buffer holds the `L` payload bytes, and the input cursor has
advanced by exactly `2 + L` bytes, under every schedule of partial reads: the
bytes after the frame are left for the next `read_cmd`. -/
theorem read_cmd_consumes_frame (w : World) (buf : List byte) (r : Int)
    (buf1 : List byte) (w1 : World)
    (h : read_cmd w buf = .ok (r, buf1, w1)) (hr : 0 < r) :
    ∃ (hi lo : byte), w.input.take 2 = [hi, lo] ∧
      1 ≤ decode_len hi lo ∧ r = decode_len hi lo ∧
      2 + decode_len hi lo ≤ w.input.length ∧
      w1.input = w.input.drop (2 + decode_len hi lo) ∧
      buf1.take (decode_len hi lo) = (w.input.drop 2).take (decode_len hi lo) := by
  obtain ⟨r0, b1, v1, evs1, m1, -, e1, -, e3, e4, -, e6, -, hc⟩ := read_cmd_inv w buf r buf1 w1 h
  rcases hc with ⟨-, hneg, -, -⟩ | ⟨hr0, hi, lo, evs2, m2, hb0, hb1, g1, -, g3, g4, -, g6, -⟩
  · omega
  · subst hr0
    have hm1 : m1 = 2 := by
      rcases exactRun_result e1 with ⟨_, e⟩ | ⟨e, _⟩
      · omega
      · omega
    subst hm1
    obtain ⟨a, b, hab⟩ : ∃ a b, w.input.take 2 = [a, b] := by
      have hl : (w.input.take 2).length = 2 := by rw [List.length_take]; omega
      match hw : w.input.take 2, hl with
      | [a, b], _ => exact ⟨a, b, rfl⟩
    rw [hab, store_zero] at e4
    have ha : hi = a := by
      rw [e4] at hb0; simpa using hb0.symm
    have hb : lo = b := by
      rw [e4] at hb1; simpa using hb1.symm
    subst ha hb
    have hrm : r = decode_len hi lo ∧ m2 = decode_len hi lo := by
      rcases exactRun_result g1 with ⟨e, em⟩ | ⟨e, _⟩
      · exact ⟨e, by omega⟩
      · omega
    obtain ⟨hrL, hm2⟩ := hrm
    subst hm2
    rw [e6] at g3 g4 g6
    rw [List.length_drop] at g3
    refine ⟨hi, lo, hab, by omega, hrL, by omega, by rw [g6, List.drop_drop, Nat.add_comm],
      ?_⟩
    rw [g4, store_take_zero _ _ _ (by rw [List.length_take, List.length_drop]; omega),
      List.take_take, Nat.min_self]

/-- Witness for C13: a frame of three payload bytes followed by the start of
the next frame, read one byte per `read`. -/
theorem read_cmd_consumes_frame_witness :
    (read_cmd (World.start [0, 3, 7, 8, 9, 0, 2] [1, 1, 1, 1, 1] []) [0, 0, 0, 0] =
        .ok (3, [7, 8, 9, 0],
          { input := [0, 2], rsched := [], output := [], wsched := [],
            log := [Event.read 0 2 1, Event.read 1 1 1, Event.read 0 3 1, Event.read 1 2 1,
                    Event.read 2 1 1] }) ∧
      (0 : Int) < 3) ∧
    ∃ (hi lo : byte),
      (World.start [0, 3, 7, 8, 9, 0, 2] [1, 1, 1, 1, 1] []).input.take 2 = [hi, lo] ∧
      1 ≤ decode_len hi lo ∧ (3 : Int) = decode_len hi lo ∧
      2 + decode_len hi lo ≤ (World.start [0, 3, 7, 8, 9, 0, 2] [1, 1, 1, 1, 1] []).input.length ∧
      ({ input := [0, 2], rsched := [], output := [], wsched := [],
         log := [Event.read 0 2 1, Event.read 1 1 1, Event.read 0 3 1, Event.read 1 2 1,
                 Event.read 2 1 1] } : World).input =
        (World.start [0, 3, 7, 8, 9, 0, 2] [1, 1, 1, 1, 1] []).input.drop (2 + decode_len hi lo) ∧
      ([7, 8, 9, 0] : List byte).take (decode_len hi lo) =
        ((World.start [0, 3, 7, 8, 9, 0, 2] [1, 1, 1, 1, 1] []).input.drop 2).take
          (decode_len hi lo) :=
  ⟨⟨by decide, by decide⟩,
    read_cmd_consumes_frame (World.start [0, 3, 7, 8, 9, 0, 2] [1, 1, 1, 1, 1] []) [0, 0, 0, 0] 3
      [7, 8, 9, 0] _ (by decide) (by decide)⟩

/-- C14: the length field written by `write_cmd` is the length masked to 16
bits, also for `len > 65535`: the two length bytes, decoded big-endian, are
`len & 0xFFFF = len mod 65536`, while the payload written after them has the
unmasked `len` bytes (all underlying writes successful, possibly short). -/
theorem length_field_masked (w : World) (buf : List byte) (len : Nat)
    (hb : len ≤ buf.length) (hs : ∀ h ∈ w.wsched, (0 : Int) < h) :
    ∃ (w1 : World) (hi lo : byte) (payload : List byte),
      write_cmd w buf len = .ok ((len : Int), w1) ∧
      w1.output = w.output ++ hi :: lo :: payload ∧
      decode_len hi lo = len &&& 0xFFFF ∧ decode_len hi lo = len % 65536 ∧
      payload.length = len ∧ payload = buf.take len := by
  obtain ⟨w1, h1, h2, -⟩ := write_cmd_ok w buf len hb hs
  refine ⟨w1, len_hi len, len_lo len, buf.take len, h1, h2, ?_, decode_len_encode len,
    by rw [List.length_take]; omega, rfl⟩
  rw [decode_len_encode, show (0xFFFF : Nat) = 2 ^ 16 - 1 from rfl,
    Nat.and_pow_two_sub_one_eq_mod]

/-- Witness for C14: a length of 70000 bytes, above 65535. -/
theorem length_field_masked_witness :
    (70000 ≤ (List.replicate 70000 (0 : byte)).length ∧
      ∀ h ∈ (World.start [] [] [1, 1, 3]).wsched, (0 : Int) < h) ∧
    ∃ (w1 : World) (hi lo : byte) (payload : List byte),
      write_cmd (World.start [] [] [1, 1, 3]) (List.replicate 70000 0) 70000 =
        .ok (((70000 : Nat) : Int), w1) ∧
      w1.output = (World.start [] [] [1, 1, 3]).output ++ hi :: lo :: payload ∧
      decode_len hi lo = 70000 &&& 0xFFFF ∧ decode_len hi lo = 70000 % 65536 ∧
      payload.length = 70000 ∧ payload = (List.replicate 70000 (0 : byte)).take 70000 :=
  ⟨⟨by rw [List.length_replicate], by decide⟩,
    length_field_masked (World.start [] [] [1, 1, 3]) (List.replicate 70000 0) 70000
      (by rw [List.length_replicate]) (by decide)⟩

/-- C15: the read path makes no capacity check against the 100-byte buffer of
the command loop.  A frame whose declared length is at most 100 is read, under
every schedule, with every `read` request inside `buf[0 .. 100)` and without a
store outside the buffer.  For a declared length above 100 whose payload is
fully available (reads failure-free), `read_cmd` does not reject the frame:
the payload read runs into a store at an index of 100 or more. -/
theorem no_capacity_check (ws wl : World) (buf : List byte) (hi lo hi2 lo2 : byte)
    (tail tail2 : List byte) (hbuf : buf.length = 100)
    (hins : ws.input = hi :: lo :: tail) (hsmall : decode_len hi lo ≤ 100)
    (hinl : wl.input = hi2 :: lo2 :: tail2) (hlarge : 100 < decode_len hi2 lo2)
    (havail : decode_len hi2 lo2 ≤ tail2.length)
    (hrs : ∀ h ∈ wl.rsched, (0 : Int) ≤ h) :
    (∃ (r : Int) (buf1 : List byte) (w1 : World) (evs : List Event),
      read_cmd ws buf = .ok (r, buf1, w1) ∧ buf1.length = 100 ∧
      w1.log = ws.log ++ evs ∧
      ∀ e ∈ evs, ∃ (off n : Nat) (i : Int), e = Event.read off n i ∧ off + n ≤ 100) ∧
    decode_len hi2 lo2 ≤ 65535 ∧
    read_cmd wl buf = .fault .bounds := by
  refine ⟨?_, ?_, ?_⟩
  · obtain ⟨r, buf2, w2, evs, h1, -⟩ :=
      read_cmd_frame ws buf hi lo tail hins (by omega)
        (le_trans (Nat.min_le_left _ _) (by omega))
    obtain ⟨r0, b1, v1, evs1, m1, -, e1, e2, e3, e4, e5, e6, -, hc⟩ :=
      read_cmd_inv ws buf r buf2 w2 h1
    have hev1 : ∀ e ∈ evs1, ∃ (off n : Nat) (i : Int), e = Event.read off n i ∧ off + n ≤ 100 := by
      intro e he
      obtain ⟨off, i, x1, -, x3⟩ := exactRun_requests e1 (Nat.zero_le _) e he
      exact ⟨off, 2 - off, i, x1, by omega⟩
    rcases hc with ⟨-, -, hb2, hw2⟩ | ⟨hr0, a, b, evs2, m2, hb0, hb1, g1, g2, -, -, g5, -, -⟩
    · subst hb2 hw2
      exact ⟨r, buf2, w2, evs1, h1, by rw [e5, hbuf], e2, hev1⟩
    · subst hr0
      have hm1 : m1 = 2 := by
        rcases exactRun_result e1 with ⟨_, e⟩ | ⟨e, _⟩
        · omega
        · omega
      subst hm1
      rw [hins] at e4
      simp only [List.take_succ_cons, List.take_zero, store_zero] at e4
      have ha : a = hi := by rw [e4] at hb0; simpa using hb0.symm
      have hb : b = lo := by rw [e4] at hb1; simpa using hb1.symm
      subst ha hb
      refine ⟨r, buf2, w2, evs1 ++ evs2, h1, by rw [g5, e5, hbuf],
        by rw [g2, e2, List.append_assoc], fun e he => ?_⟩
      rcases List.mem_append.mp he with he | he
      · exact hev1 e he
      · obtain ⟨off, i, x1, -, x3⟩ := exactRun_requests g1 (Nat.zero_le _) e he
        exact ⟨off, decode_len a b - off, i, x1, by omega⟩
  · rw [decode_len_eq]
    have h1 := hi2.isLt
    have h2 := lo2.isLt
    omega
  · obtain ⟨buf1, w1, h1, hb1, hi1, hs1, -⟩ :=
      read_exact_ok wl buf 2 (by omega) hrs (by rw [hinl]; simp)
    rw [hinl] at hb1 hi1
    simp only [List.take_succ_cons, List.take_zero, List.drop_succ_cons, List.drop_zero,
      store_zero] at hb1 hi1
    have e0 : buf1[0]? = some hi2 := by rw [hb1]; simp
    have e1 : buf1[1]? = some lo2 := by rw [hb1]; simp
    have hlen1 : buf1.length = 100 := by
      rw [hb1]; simp only [List.length_append, List.length_cons, List.length_nil,
        List.length_drop]; omega
    have hov := read_exact_loop_overflow (decode_len hi2 lo2) (decode_len hi2 lo2 + 1) w1 buf1 0
      (by omega) (by omega) (by omega) (by rw [hi1]; simpa using havail) hs1
    rw [read_cmd, h1]
    simp only [Nat.cast_ofNat, ne_eq, not_true_eq_false, if_false, e0, e1]
    exact hov

/-- Witness for C15: a frame of declared length 3 and a frame of declared
length 101 with its 101 payload bytes. -/
theorem no_capacity_check_witness :
    (((List.range 100).map (fun _ => (0 : byte))).length = 100 ∧
      (World.start [0, 3, 7, 8, 9] [1, -1] []).input = 0 :: 3 :: [7, 8, 9] ∧
      decode_len 0 3 ≤ 100 ∧
      (World.start (0 :: 101 :: List.replicate 101 5) [] []).input =
        0 :: 101 :: List.replicate 101 5 ∧
      100 < decode_len 0 101 ∧
      decode_len 0 101 ≤ (List.replicate 101 (5 : byte)).length ∧
      (∀ h ∈ (World.start (0 :: 101 :: List.replicate 101 5) [] []).rsched, (0 : Int) ≤ h)) ∧
    (∃ (r : Int) (buf1 : List byte) (w1 : World) (evs : List Event),
      read_cmd (World.start [0, 3, 7, 8, 9] [1, -1] []) ((List.range 100).map (fun _ => 0)) =
        .ok (r, buf1, w1) ∧ buf1.length = 100 ∧
      w1.log = (World.start [0, 3, 7, 8, 9] [1, -1] []).log ++ evs ∧
      ∀ e ∈ evs, ∃ (off n : Nat) (i : Int), e = Event.read off n i ∧ off + n ≤ 100) ∧
    decode_len 0 101 ≤ 65535 ∧
    read_cmd (World.start (0 :: 101 :: List.replicate 101 5) [] [])
      ((List.range 100).map (fun _ => 0)) = .fault .bounds :=
  ⟨⟨by simp, rfl, by decide, rfl, by decide, by decide, by decide⟩,
    no_capacity_check (World.start [0, 3, 7, 8, 9] [1, -1] [])
      (World.start (0 :: 101 :: List.replicate 101 5) [] []) ((List.range 100).map (fun _ => 0))
      0 3 0 101 [7, 8, 9] (List.replicate 101 5) (by simp) rfl (by decide) rfl (by decide)
      (by decide) (by decide)⟩

/-- C16: `res` is not reset between passes.  After a request with opcode 1
or 2 (whatever was processed before it), every following request whose opcode
is neither 1 nor 2 still gets exactly one response frame `[0, 1, b]`, and `b`
is the response byte of that last request with opcode 1 or 2. -/
theorem stale_result_repeated (foo bar : Int → Int)
    (pre unknowns post : List (byte × byte)) (op1 x1 : byte) (w : World)
    (junk : Nat → byte) (res0 : Int)
    (hop1 : op1 = 1 ∨ op1 = 2) (hunk : ∀ q ∈ unknowns, q.1 ≠ 1 ∧ q.1 ≠ 2)
    (hin : w.input = request_frames (pre ++ (op1, x1) :: unknowns ++ post))
    (hrs : ∀ h ∈ w.rsched, (0 : Int) ≤ h) (hws : ∀ h ∈ w.wsched, (0 : Int) < h) :
    ∃ (w1 : World) (buf1 : List byte) (res1 : Int) (out_pre out_post : List byte),
      main foo bar w junk res0 = .ok (w1, buf1, res1) ∧
      out_pre.length = 3 * pre.length ∧ out_post.length = 3 * post.length ∧
      w1.output = w.output ++ out_pre ++
        [0, 1, to_byte (if op1 = 1 then foo x1.val else bar x1.val)] ++
        repeat_frame (to_byte (if op1 = 1 then foo x1.val else bar x1.val)) unknowns.length ++
        out_post := by
  have hlen : w.input.length =
      4 * pre.length + 4 + 4 * unknowns.length + 4 * post.length := by
    rw [hin, request_frames_length]
    simp only [List.length_append, List.length_cons]
    omega
  obtain ⟨k, hk⟩ : ∃ k, w.input.length + 1 =
      ((k + 1 + post.length) + unknowns.length + 1) + pre.length :=
    ⟨w.input.length - (post.length + unknowns.length + 1 + pre.length), by omega⟩
  have hin' : w.input = request_frames pre ++
      (0 :: 2 :: op1 :: x1 :: (request_frames unknowns ++ (request_frames post ++ []))) := by
    rw [hin, request_frames_append]
    simp [request_frames, request_frames_append]
  obtain ⟨w1, buf1, res1, out1, a1, a2, a3, a4, a5, a6, a7⟩ :=
    main_loop_prefix foo bar _ pre ((k + 1 + post.length) + unknowns.length + 1) w
      ((List.range 100).map junk) res0 hin' (by simp) hrs hws
  have h100 : ((List.range 100).map junk).length = 100 := by simp
  rw [h100] at a5
  obtain ⟨w2, buf2, evr, evw, b1, b2, b3, b4, b5, b6, -⟩ :=
    main_loop_request foo bar ((k + 1 + post.length) + unknowns.length) w1 buf1 res1 op1 x1 _
      a2 (by omega) a6 a7
  have hv : (if (op1.val : Int) = 1 then foo x1.val
      else if (op1.val : Int) = 2 then bar x1.val else res1) =
      (if op1 = 1 then foo x1.val else bar x1.val) := by
    rcases hop1 with h | h
    · subst h; simp
    · subst h; simp
  rw [hv] at b1 b3
  obtain ⟨w3, buf3, c1, c2, c3, c4, c5, c6⟩ :=
    main_loop_unknowns foo bar _ unknowns (k + 1 + post.length) w2 buf2 _ hunk b2 (by omega)
      b5 b6
  obtain ⟨w4, buf4, res4, out4, d1, d2, d3, d4, d5, d6, d7⟩ :=
    main_loop_prefix foo bar [] post (k + 1) w3 buf3 _ c2 (by omega) c5 c6
  obtain ⟨w5, r, e1, -, -, e4, -⟩ := main_loop_stop foo bar k w4 buf4 res4 d2
  refine ⟨w5, buf4, res4, out1, out4, ?_, a4, d4, ?_⟩
  · rw [main, hk, a1, b1, c1, d1, e1]
  · rw [e4, d3, c3, b3, a3]

/-- Witness for C16: the requests `[1, 5]`, `[9, 0]`, `[7, 3]` with
`foo x = x + 1`: the two requests with unknown opcodes are both answered with
`foo 5 = 6`. -/
theorem stale_result_repeated_witness :
    (((1 : byte) = 1 ∨ (1 : byte) = 2) ∧
      (∀ q ∈ ([(9, 0), (7, 3)] : List (byte × byte)), q.1 ≠ 1 ∧ q.1 ≠ 2) ∧
      (World.start [0, 2, 1, 5, 0, 2, 9, 0, 0, 2, 7, 3] [] []).input =
        request_frames ([] ++ (1, 5) :: [(9, 0), (7, 3)] ++ []) ∧
      (∀ h ∈ (World.start [0, 2, 1, 5, 0, 2, 9, 0, 0, 2, 7, 3] [] []).rsched, (0 : Int) ≤ h) ∧
      (∀ h ∈ (World.start [0, 2, 1, 5, 0, 2, 9, 0, 0, 2, 7, 3] [] []).wsched, (0 : Int) < h)) ∧
    [0, 1, to_byte (if (1 : byte) = 1 then (fun v => v + 1) ((5 : byte).val : Int)
        else (fun v => 2 * v) ((5 : byte).val : Int))] ++
      repeat_frame (to_byte (if (1 : byte) = 1 then (fun v => v + 1) ((5 : byte).val : Int)
        else (fun v => 2 * v) ((5 : byte).val : Int))) 2 = [0, 1, 6, 0, 1, 6, 0, 1, 6] ∧
    ∃ (w1 : World) (buf1 : List byte) (res1 : Int) (out_pre out_post : List byte),
      main (fun v => v + 1) (fun v => 2 * v)
        (World.start [0, 2, 1, 5, 0, 2, 9, 0, 0, 2, 7, 3] [] []) (fun _ => 0) 0 =
        .ok (w1, buf1, res1) ∧
      out_pre.length = 3 * ([] : List (byte × byte)).length ∧
      out_post.length = 3 * ([] : List (byte × byte)).length ∧
      w1.output = (World.start [0, 2, 1, 5, 0, 2, 9, 0, 0, 2, 7, 3] [] []).output ++ out_pre ++
        [0, 1, to_byte (if (1 : byte) = 1 then (fun v => v + 1) ((5 : byte).val : Int)
          else (fun v => 2 * v) ((5 : byte).val : Int))] ++
        repeat_frame (to_byte (if (1 : byte) = 1 then (fun v => v + 1) ((5 : byte).val : Int)
          else (fun v => 2 * v) ((5 : byte).val : Int)))
          ([(9, 0), (7, 3)] : List (byte × byte)).length ++
        out_post :=
  ⟨⟨by decide, fun q hq => by
      simp only [List.mem_cons, List.mem_singleton, List.not_mem_nil, or_false] at hq
      rcases hq with rfl | rfl <;> decide,
    rfl, by decide, by decide⟩, by decide,
    stale_result_repeated (fun v => v + 1) (fun v => 2 * v) [] [(9, 0), (7, 3)] [] 1 5
      (World.start [0, 2, 1, 5, 0, 2, 9, 0, 0, 2, 7, 3] [] []) (fun _ => 0) 0
      (by decide)
      (fun q hq => by
        simp only [List.mem_cons, List.mem_singleton, List.not_mem_nil, or_false] at hq
        rcases hq with rfl | rfl <;> decide)
      rfl (by decide) (by decide)⟩

/-- C17: for a request frame with the one-byte payload `[op]` (wire bytes
`0, 1, op`) and `op` 1 or 2, the handler is called once and its operand is 1,
whatever the buffer held before: `buf[1]` still holds the low length byte,
because `read_cmd` reads the length bytes and the payload into the same
buffer from offset 0.  The response is the handler's result for 1. -/
theorem short_request_operand (foo bar : Int → Int) (op : byte) (w : World)
    (junk : Nat → byte) (res0 : Int) (hop : op = 1 ∨ op = 2)
    (hin : w.input = [0, 1, op])
    (hrs : ∀ h ∈ w.rsched, (0 : Int) ≤ h) (hws : ∀ h ∈ w.wsched, (0 : Int) < h) :
    ∃ (w1 : World) (buf1 : List byte) (evr evw : List Event) (r : Int),
      main foo bar w junk res0 =
        .ok (w1, buf1, if op = 1 then foo 1 else bar 1) ∧
      w1.log = w.log ++ evr ++ [if op = 1 then Event.foo 1 else Event.bar 1] ++ evw ++
        [Event.read 0 2 r] ∧
      (∀ e ∈ evr, ∃ a b i, e = Event.read a b i) ∧
      (∀ e ∈ evw, ∃ a b i, e = Event.write a b i) ∧
      w1.output = w.output ++ [0, 1, to_byte (if op = 1 then foo 1 else bar 1)] := by
  obtain ⟨fn, arg, w1, buf1, evr, evw, e0, e1, h1, h2, h3, h4, h5, h6, h7, -, h9⟩ :=
    main_loop_frame foo bar 3 w ((List.range 100).map junk) res0 0 1 [op] []
      (by simpa using hin) (by simp [decode_len]) (by simp) (by simp) (by simp) hrs
  have hfn : fn = op := by
    rw [store_zero, store_zero] at e0
    simpa using e0.symm
  have harg : arg = 1 := by
    rw [store_zero, store_zero] at e1
    simpa using e1.symm
  subst hfn harg
  obtain ⟨w2, r, g1, -, g3, g4, -⟩ := main_loop_stop foo bar 2 w1 buf1 _ h2
  have hcases : ((fn.val : Int) = 1 ∧ fn = 1) ∨ ((fn.val : Int) = 2 ∧ ¬ (fn.val : Int) = 1 ∧ fn ≠ 1) := by
    rcases hop with h | h
    · left; subst h; exact ⟨rfl, rfl⟩
    · right; subst h; exact ⟨rfl, by decide, by decide⟩
  have h9' := h9 hws
  refine ⟨w2, buf1, evr, evw, r, ?_, ?_, h6, h7, ?_⟩
  · rw [main, hin]
    show main_loop foo bar (3 + 1) w _ res0 = _
    rw [h1, g1]
    rcases hcases with ⟨c1, c2⟩ | ⟨c1, c2, c3⟩
    · simp [c1, c2]
    · simp [c1, c2, c3]
  · rw [g3, h5]
    rcases hcases with ⟨c1, c2⟩ | ⟨c1, c2, c3⟩
    · simp [c1, c2]
    · simp [c1, c2, c3]
  · rw [g4, h9']
    rcases hcases with ⟨c1, c2⟩ | ⟨c1, c2, c3⟩
    · simp [c1, c2]
    · simp [c1, c2, c3]

/-- Witness for C17: the frame `0, 1, 2` with `foo x = x + 1`, `bar x = 2 * x`
and a buffer that held 9 everywhere. -/
theorem short_request_operand_witness :
    (((2 : byte) = 1 ∨ (2 : byte) = 2) ∧ (World.start [0, 1, 2] [] []).input = [0, 1, 2] ∧
      (∀ h ∈ (World.start [0, 1, 2] [] []).rsched, (0 : Int) ≤ h) ∧
      (∀ h ∈ (World.start [0, 1, 2] [] []).wsched, (0 : Int) < h)) ∧
    ∃ (w1 : World) (buf1 : List byte) (evr evw : List Event) (r : Int),
      main (fun v => v + 1) (fun v => 2 * v) (World.start [0, 1, 2] [] []) (fun _ => 9) 0 =
        .ok (w1, buf1, if (2 : byte) = 1 then (fun v => v + 1) 1 else (fun v => 2 * v) 1) ∧
      w1.log = (World.start [0, 1, 2] [] []).log ++ evr ++
        [if (2 : byte) = 1 then Event.foo 1 else Event.bar 1] ++ evw ++ [Event.read 0 2 r] ∧
      (∀ e ∈ evr, ∃ a b i, e = Event.read a b i) ∧
      (∀ e ∈ evw, ∃ a b i, e = Event.write a b i) ∧
      w1.output = (World.start [0, 1, 2] [] []).output ++
        [0, 1, to_byte (if (2 : byte) = 1 then (fun v => v + 1) 1 else (fun v => 2 * v) 1)] :=
  ⟨⟨by decide, rfl, by decide, by decide⟩,
    short_request_operand (fun v => v + 1) (fun v => 2 * v) 2 (World.start [0, 1, 2] [] [])
      (fun _ => 9) 0 (by decide) rfl (by decide) (by decide)⟩

/-- C18: for `len ≥ 1` and a buffer with room for `len` bytes, `read_exact`
ends in a result under every schedule; the underlying reads never return
more than was asked for.  It issues at least one and at most `len` `read`
calls, each asking for exactly the outstanding `len - got > 0` bytes at
offset `got` (`ExactRun`), the accumulated count never exceeds `len`, and no
more than `len` bytes are taken from the stream. -/
theorem read_exact_bounded (w : World) (buf : List byte) (len : Nat)
    (hl : 1 ≤ len) (hb : len ≤ buf.length) :
    ∃ (r : Int) (buf1 : List byte) (w1 : World) (evs : List Event) (m : Nat),
      read_exact w buf len = .ok (r, buf1, w1) ∧
      w1.log = w.log ++ evs ∧
      ExactRun Event.read len 0 evs r m ∧
      1 ≤ evs.length ∧ evs.length ≤ len ∧
      (∀ e ∈ evs, ∃ (got : Nat) (i : Int), e = Event.read got (len - got) i ∧
        got < len ∧ i ≤ (len - got : Nat) ∧ (got : Int) + i ≤ len) ∧
      m ≤ len ∧ w1.input = w.input.drop m := by
  obtain ⟨r, buf1, w1, evs, m, h1, h2, h3, -, -, h6, -⟩ :=
    read_exact_run w buf len (le_trans (Nat.min_le_left _ _) hb)
  obtain ⟨c1, c2, c3⟩ := exactRun_calls h2 (by omega)
  refine ⟨r, buf1, w1, evs, m, h1, h3, h2, c1, by omega, fun e he => ?_,
    by have := exactRun_le h2 (Nat.zero_le _); omega, h6⟩
  obtain ⟨off, i, e1, -, e3, e4⟩ := c3 e he
  exact ⟨off, i, e1, e3, e4, by omega⟩

/-- Witness for C18: four bytes asked from a stream that hands them over in
pieces of one, two and one byte. -/
theorem read_exact_bounded_witness :
    (1 ≤ 4 ∧ 4 ≤ ([0, 0, 0, 0] : List byte).length) ∧
    ∃ (r : Int) (buf1 : List byte) (w1 : World) (evs : List Event) (m : Nat),
      read_exact (World.start [1, 2, 3, 4, 5] [1, 2, 7] []) [0, 0, 0, 0] 4 = .ok (r, buf1, w1) ∧
      w1.log = (World.start [1, 2, 3, 4, 5] [1, 2, 7] []).log ++ evs ∧
      ExactRun Event.read 4 0 evs r m ∧
      1 ≤ evs.length ∧ evs.length ≤ 4 ∧
      (∀ e ∈ evs, ∃ (got : Nat) (i : Int), e = Event.read got (4 - got) i ∧
        got < 4 ∧ i ≤ (4 - got : Nat) ∧ (got : Int) + i ≤ (4 : Nat)) ∧
      m ≤ 4 ∧ w1.input = (World.start [1, 2, 3, 4, 5] [1, 2, 7] []).input.drop m :=
  ⟨by decide, read_exact_bounded (World.start [1, 2, 3, 4, 5] [1, 2, 7] []) [0, 0, 0, 0] 4
    (by decide) (by decide)⟩

end ErlPort
